import Mathlib

/-!
Verification of the windowed block I/O and edit-overlay engine of the
rsreit binary file editor (src/files.rs, src/block.rs, src/undo.rs,
src/app.rs, src/tabs.rs, src/modes.rs).

Modelling conventions:
* bytes are `Nat` values (the code only moves bytes around, so no `% 256`
  is ever needed);
* a file on disk is a `List Nat`; its length plays the role of the value
  returned by `std::fs::metadata(path)?.len()`;
* the `BTreeMap<u64, Vec<u8>>` patch overlay is a key-sorted association
  list `Patch`; `BTreeMap::insert` is `pinsert`, `BTreeMap::range` is a
  `List.filter` on the key;
* `u64` arithmetic on file offsets is `Nat` arithmetic.  The bit mask
  `offset & !(WRITE_BLOCK-1)` clears the low 11 bits, which on every u64
  value equals `offset - offset % 2048`;  `(len - 1) | (WRITE_BLOCK-1)` is
  kept as a literal `Nat.lor`;
* Rust panics (slice/splice index out of range, `u64` underflow) are
  modelled by `Option`: `none` means the operation aborts abnormally;
* a single `read(2)` on a regular file is modelled as returning
  `min size (len - offset)` bytes;
* I/O errors during flush are injected through a `WriteEnv` oracle keyed
  by the aligned region start; `Except` separates the `Err(IOError)` early
  return from normal completion.
-/

/-- `WRITE_BLOCK` from src/files.rs. -/
def WRITE_BLOCK : Nat := 2048

/-- The patch overlay: `BTreeMap<u64, Vec<u8>>` as a key-sorted association
list from absolute file offset to replacement byte run. -/
abbrev Patch := List (Nat × List Nat)

/-- `BTreeMap::insert`: insert or replace, keeping keys strictly sorted. -/
def pinsert (k : Nat) (v : List Nat) : Patch → Patch
  | [] => [(k, v)]
  | kv :: rest =>
    if k < kv.1 then (k, v) :: kv :: rest
    else if k = kv.1 then (k, v) :: rest
    else kv :: pinsert k v rest

/-- `BTreeMap::get`-style lookup. -/
def plookup (k : Nat) : Patch → Option (List Nat)
  | [] => none
  | kv :: rest => if kv.1 = k then some kv.2 else plookup k rest

/-- Keys strictly ascending: the invariant a `BTreeMap` maintains and the
order in which `range` iterates. -/
def keysSortedB : Patch → Bool
  | [] => true
  | [_] => true
  | a :: b :: rest => decide (a.1 < b.1) && keysSortedB (b :: rest)

/-- `Block` from src/block.rs. -/
structure Block where
  buffer : List Nat
  source : List Nat
  offset : Nat
  size : Nat
  prev_offset : Nat
  prev_size : Nat
deriving DecidableEq, Repr

/-- `Block::new(size)`: `Vec::with_capacity` allocates capacity but the
vectors have length 0. -/
def Block.new (size : Nat) : Block :=
  { buffer := [], source := [], offset := 0, size := size,
    prev_offset := 0, prev_size := 0 }

/-- `Files::read_block` (src/files.rs lines 83-99).  `size` bytes are wanted
at `offset`; `len` is the on-disk file length; `buffer` is the caller's
vector.  If `offset < len` the vector is resized to `size`, up to `size`
bytes are read and the unread tail is filled with `0xFF`.  If
`offset >= len` there is no seek, no read and no resize: the code fills
`buffer[0..size]` with `0xFF`, which panics (`none`) unless the vector
already has length at least `size`. -/
def read_block (size offset len : Nat) (disk buffer : List Nat) :
    Option (List Nat) :=
  if offset < len then
    let nb := min size (len - offset)
    some ((disk.drop offset).take nb ++ List.replicate (size - nb) 255)
  else if size ≤ buffer.length then
    some (List.replicate size 255 ++ buffer.drop size)
  else none

/-- `Vec::splice(bmin..bmin+v.len(), v)` as used by `do_apply_patch` and
`handle_insert`: an in-place overwrite of `v.length` bytes starting at
`bmin`; panics (`none`) when the range leaves the vector. -/
def spliceList (buffer : List Nat) (bmin : Nat) (v : List Nat) :
    Option (List Nat) :=
  if bmin + v.length ≤ buffer.length then
    some (buffer.take bmin ++ v ++ buffer.drop (bmin + v.length))
  else none

/-- `patch.range((Included(min), Excluded(max)))`: the entries with key in
`[minOff, maxOff)`, in list (i.e. key) order. -/
def inRangeEntries (minOff maxOff : Nat) (patch : Patch) : Patch :=
  patch.filter (fun kv => decide (minOff ≤ kv.1 ∧ kv.1 < maxOff))

/-- The splice loop of `Files::do_apply_patch`, over an already
range-restricted entry list. -/
def applyEntries (minOff : Nat) : Patch → List Nat → Option (List Nat)
  | [], buf => some buf
  | kv :: rest, buf =>
    match spliceList buf (kv.1 - minOff) kv.2 with
    | some buf2 => applyEntries minOff rest buf2
    | none => none

/-- `Files::do_apply_patch` (src/files.rs lines 132-141): splice every
patch run whose key lies in `[block.offset, block.offset + block.size)`
into the block's buffer, in ascending key order. -/
def do_apply_patch (blk : Block) (patch : Patch) : Option Block :=
  match applyEntries blk.offset
      (inRangeEntries blk.offset (blk.offset + blk.size) patch) blk.buffer with
  | some buf2 => some { blk with buffer := buf2 }
  | none => none

/-- `App::read_block` (src/app.rs lines 828-845): run `Files::read_block`
on the file's block at its current offset/size, then clone the buffer into
`source`, record `prev_offset`/`prev_size`, and cache the file length in
`fi.size`.  Returns the updated block and the new cached size. -/
def app_read_block (blk : Block) (disk : List Nat) : Option (Block × Nat) :=
  match read_block blk.size blk.offset disk.length disk blk.buffer with
  | none => none
  | some buf =>
    some ({ blk with
              buffer := buf,
              source := buf,
              prev_offset := blk.offset,
              prev_size := blk.size }, disk.length)

/-- `offset & !(WRITE_BLOCK - 1)`: align an offset down to the enclosing
2048-byte boundary (clears the low 11 bits of the u64). -/
def alignDown (k : Nat) : Nat := k - k % WRITE_BLOCK

/-- `((bytes.len() - 1) | (WRITE_BLOCK - 1)) + 1`: the run length rounded
up to a multiple of 2048.  Callers must rule out an empty run, where the
source's `bytes.len() as u64 - 1` underflows. -/
def roundUpBlock (n : Nat) : Nat := ((n - 1) ||| (WRITE_BLOCK - 1)) + 1

/-- Positioned write (`file.write_at(data, rstart)`) on the disk model.
`Files::write` always passes `rstart + data.length ≤ disk.length`, so no
file extension happens. -/
def writeAt (disk data : List Nat) (rstart : Nat) : List Nat :=
  disk.take rstart ++ data ++ disk.drop (rstart + data.length)

/-- Fault-injection oracle for flush I/O: `rfail at` makes the region read
starting at `at` return an IOError, `wfail at` the region write. -/
structure WriteEnv where
  rfail : Nat → Bool
  wfail : Nat → Bool

/-- The environment in which every read and write succeeds. -/
def envOk : WriteEnv := ⟨fun _ => false, fun _ => false⟩

/-- Result of `Files::write`: the remaining patch overlay, the disk
contents, and the log of `(at, size)` aligned regions actually written, for
both the `Ok` and the `Err(IOError)` outcome. -/
inductive WResult where
  | ok : Patch → List Nat → List (Nat × Nat) → WResult
  | ioerr : Patch → List Nat → List (Nat × Nat) → WResult
deriving DecidableEq, Repr

/-- The region loop of `Files::write` (src/files.rs lines 111-127).
`patchAll` is the full overlay (what `do_apply_patch` sees), `len` the
on-disk length, the first list argument the entries of
`patch.range [0, fi.size)` still to process, then `prev_offset`, the
current disk contents, the scratch `block.buffer`, and the write log.
Returns `none` on a panic, `.error` on an IOError early return. -/
def writeLoop (env : WriteEnv) (patchAll : Patch) (len : Nat) :
    Patch → Nat → List Nat → List Nat → List (Nat × Nat) →
    Option (Except (List Nat × List (Nat × Nat))
                   (List Nat × List Nat × List (Nat × Nat)))
  | [], _, disk, buffer, log => some (.ok (disk, buffer, log))
  | (k, v) :: rest, prev, disk, buffer, log =>
    if v.length = 0 then none
    else
      let rs := alignDown k
      let sz := roundUpBlock v.length
      if prev < rs + sz then
        if env.rfail rs then some (.error (disk, log))
        else
          match read_block sz rs len disk buffer with
          | none => none
          | some buf1 =>
            -- `block.size` is still the 2048 from `Block::new`, so the
            -- overlay is applied on `[rs, rs + 2048)` even when `sz > 2048`.
            match applyEntries rs (inRangeEntries rs (rs + WRITE_BLOCK) patchAll) buf1 with
            | none => none
            | some buf2 =>
              if len < rs then none
              else
                let bsize := min sz (len - rs)
                if env.wfail rs then some (.error (disk, log))
                else
                  writeLoop env patchAll len rest (rs + sz)
                    (writeAt disk (buf2.take bsize) rs) buf2 (log ++ [(rs, sz)])
      else writeLoop env patchAll len rest prev disk buffer log

/-- `Files::write` (src/files.rs lines 101-130): iterate the patch entries
with key in `[0, fi.size)` in ascending order, read-modify-write each new
aligned region, and clear the whole overlay on success.  On an IOError the
overlay is returned untouched. -/
def files_write (env : WriteEnv) (patch : Patch) (fisize : Nat)
    (disk : List Nat) : Option WResult :=
  match writeLoop env patch disk.length
      (patch.filter (fun kv => decide (kv.1 < fisize))) 0 disk [] [] with
  | none => none
  | some (.error (d, log)) => some (.ioerr patch d log)
  | some (.ok (d, _, log)) => some (.ok [] d log)

/-- One edit as the reference semantics sees it: overwrite `v` at absolute
offset `k` (always applied with `k + v.length ≤ disk.length` in the
theorems below). -/
def overwriteRun (disk : List Nat) (k : Nat) (v : List Nat) : List Nat :=
  disk.take k ++ v ++ disk.drop (k + v.length)

/-- The edited file contents: every patch run applied to the disk in
ascending key order (the same splice order `do_apply_patch` uses on a
window). -/
def editedDisk (patch : Patch) (disk : List Nat) : List Nat :=
  patch.foldl (fun d kv => overwriteRun d kv.1 kv.2) disk

/-- The last entry of the list covering position `i` (later entries win,
exactly as later splices overwrite earlier ones). -/
def lastCovering (i : Nat) : Patch → Option (Nat × List Nat)
  | [] => none
  | kv :: rest =>
    match lastCovering i rest with
    | some e => some e
    | none => if kv.1 ≤ i ∧ i < kv.1 + kv.2.length then some kv else none

-- Sanity checks of the embedding on concrete inputs.

/-- Total byte indexing into a list (out of range reads 0).  All pointwise
statements below are phrased with `byteAt`. -/
def byteAt : List Nat → Nat → Nat
  | [], _ => 0
  | b :: _, 0 => b
  | _ :: rest, i + 1 => byteAt rest i

/-- `Data` from src/data.rs: one undo/redo log entry. -/
structure Data where
  offset : Nat
  data : List Nat
deriving DecidableEq, Repr

/-- The per-file edit state touched by undo/redo: the patch overlay and the
two `UndoRedo` stacks of src/undo.rs (`Vec` push/pop at the tail; the list
head is the stack top). -/
structure EditState where
  patch : Patch
  undo : List Data
  redo : List Data
deriving DecidableEq, Repr

/-- One iteration of the `for _i in 0..2` loop in `App::do_undo`
(src/app.rs lines 1204-1214): pop the undo top; if present, re-apply it to
the overlay via `do_update_patch` (a `BTreeMap::insert`) and push it onto
redo.  An empty stack is a no-op. -/
def undoStep (s : EditState) : EditState :=
  match s.undo with
  | [] => s
  | d :: rest =>
    { patch := pinsert d.offset d.data s.patch, undo := rest,
      redo := d :: s.redo }

/-- One iteration of the loop in `App::do_redo` (src/app.rs lines
1216-1226), the mirror of `undoStep`. -/
def redoStep (s : EditState) : EditState :=
  match s.redo with
  | [] => s
  | d :: rest =>
    { patch := pinsert d.offset d.data s.patch, undo := d :: s.undo,
      redo := rest }

/-- `App::do_undo`: two pop-apply-push iterations. -/
def do_undo (s : EditState) : EditState := undoStep (undoStep s)

/-- `App::do_redo`: two pop-apply-push iterations. -/
def do_redo (s : EditState) : EditState := redoStep (redoStep s)

/-- `ElementDisplay` from src/modes.rs. -/
inductive ElementDisplay where
  | byte | word | dword | qword
deriving DecidableEq, Repr

/-- `ElementMode` from src/modes.rs. -/
inductive ElementMode where
  | hex | dec | oct | bin
deriving DecidableEq, Repr

/-- `element_display_size`: bytes per element. -/
def element_display_size : ElementDisplay → Nat
  | .byte => 1
  | .word => 2
  | .dword => 4
  | .qword => 8

/-- `element_mode_size`: digits per byte in the given numeric mode. -/
def element_mode_size : ElementMode → Nat
  | .hex => 2
  | .dec => 3
  | .oct => 3
  | .bin => 8

/-- `element_mode_base`: the radix of the given numeric mode. -/
def element_mode_base : ElementMode → Nat
  | .hex => 16
  | .dec => 10
  | .oct => 8
  | .bin => 2

/-- The `Tab` fields (src/tabs.rs) that `App::handle_insert` reads or
writes.  `insert_vector` is the 64-slot digit buffer (`[u8; 64]`); in every
reachable state `insert_index < 64`. -/
structure Tab where
  print_width : Nat
  element_display : ElementDisplay
  element_mode : ElementMode
  insert_index : Nat
  insert_vector : List Nat
  cursor_row : Nat
  cursor_column : Nat
deriving DecidableEq, Repr

/-- `Tabs::cursor_pos`: `print_width * row + (column & !(size - 1))`; for
the power-of-two element sizes the mask equals `column - column % size`. -/
def cursor_pos (tab : Tab) : Nat :=
  let size := element_display_size tab.element_display
  tab.print_width * tab.cursor_row + (tab.cursor_column - tab.cursor_column % size)

/-- `Tabs::element_input_size`: digits in one element. -/
def element_input_size (tab : Tab) : Nat :=
  element_display_size tab.element_display * element_mode_size tab.element_mode

/-- `Tabs::insert_index_next` (src/tabs.rs lines 114-122): advance the
digit cursor by one and wrap to 0 at the element's digit width. -/
def insert_index_next (tab : Tab) : Tab :=
  let insert_size := element_input_size tab
  let ii := tab.insert_index + 1
  { tab with insert_index := if insert_size ≤ ii then 0 else ii }

/-- `char::to_digit(base)` on the ASCII byte `c`. -/
def charDigit (base c : Nat) : Option Nat :=
  let d :=
    if 48 ≤ c ∧ c ≤ 57 then some (c - 48)
    else if 97 ≤ c ∧ c ≤ 122 then some (c - 87)
    else if 65 ≤ c ∧ c ≤ 90 then some (c - 55)
    else none
  match d with
  | some v => if v < base then some v else none
  | none => none

/-- The digit-accumulation loop of `from_str_radix`, with the per-step
overflow check against the element's bit width. -/
def radixFold (bits base : Nat) : List Nat → Nat → Option Nat
  | [], acc => some acc
  | c :: rest, acc =>
    match charDigit base c with
    | none => none
    | some d =>
      let acc2 := acc * base + d
      if acc2 < 2 ^ bits then radixFold bits base rest acc2 else none

/-- `<uN>::from_str_radix(s, base)`: an optional leading `+`, then at least
one digit, every digit valid for `base`, value within the `bits`-bit
unsigned range.  The digit buffer bytes are used as characters (they are
always single-byte ASCII in reachable states, so `String::from_utf8` is the
identity). -/
def fromStrRadix (bits base : Nat) (s : List Nat) : Option Nat :=
  let s2 := match s with
    | 43 :: rest => rest
    | _ => s
  if s2.isEmpty then none
  else radixFold bits base s2 0

/-- `to_le_bytes()` of an `n`-byte unsigned value. -/
def toLEBytes : Nat → Nat → List Nat
  | 0, _ => []
  | n + 1, v => (v % 256) :: toLEBytes n (v / 256)

/-- `App::do_flush_input` (src/app.rs lines 1140-1165): parse the first
`size` digit slots as an unsigned integer of `display_size` bytes in the
given base; on success produce its little-endian byte run, otherwise report
a failed decode (`none`). -/
def do_flush_input (input : List Nat) (size display_size base : Nat) :
    Option (List Nat) :=
  match display_size with
  | 1 => (fromStrRadix 8 base (input.take size)).map (toLEBytes 1)
  | 2 => (fromStrRadix 16 base (input.take size)).map (toLEBytes 2)
  | 4 => (fromStrRadix 32 base (input.take size)).map (toLEBytes 4)
  | 8 => (fromStrRadix 64 base (input.take size)).map (toLEBytes 8)
  | _ => none

/-- The per-file state `App::handle_insert` touches. -/
structure AppFile where
  block : Block
  patch : Patch
  undo : List Data
  redo : List Data
deriving DecidableEq, Repr

/-- `App::handle_insert` (src/app.rs lines 1171-1202): write the keystroke
into the digit buffer at `insert_index` (unless it is the `.` skip marker,
ASCII 46), attempt a full decode of the element's digits; on success
capture the pre-edit bytes, push them to undo, splice the new bytes into
the working buffer, push the post-edit bytes to undo, and insert the run
into the patch overlay at `block.offset + cursor_pos`; in all cases advance
the digit cursor circularly.  Reading `block.buffer[pos..pos+len]` out of
range panics (`none`). -/
def handle_insert (tab : Tab) (fi : AppFile) (c : Nat) :
    Option (Tab × AppFile) :=
  let pos := cursor_pos tab
  let ib := if c ≠ 46 then tab.insert_vector.set tab.insert_index c
            else tab.insert_vector
  match do_flush_input ib (element_input_size tab)
      (element_display_size tab.element_display)
      (element_mode_base tab.element_mode) with
  | none => some (insert_index_next { tab with insert_vector := ib }, fi)
  | some vv =>
    if pos + vv.length ≤ fi.block.buffer.length then
      let key := fi.block.offset + pos
      let pre := (fi.block.buffer.drop pos).take vv.length
      match spliceList fi.block.buffer pos vv with
      | none => none
      | some buf2 =>
        let post := (buf2.drop pos).take vv.length
        some (insert_index_next { tab with insert_vector := ib },
          { fi with
              block := { fi.block with buffer := buf2 },
              patch := pinsert key vv fi.patch,
              undo := ⟨key, post⟩ :: ⟨key, pre⟩ :: fi.undo })
    else none

/-- Does `pat` match at the head of `buf` (full pattern inside `buf`)? -/
def matchesHere : List Nat → List Nat → Bool
  | [], _ => true
  | _ :: _, [] => false
  | p :: ps, b :: bs => p == b && matchesHere ps bs

/-- `TwoWaySearcher::search_in`: index of the first (leftmost) full match
of `pat` inside `buf`, if any. -/
def searchIn (pat : List Nat) : List Nat → Option Nat
  | [] => if matchesHere pat [] then some 0 else none
  | b :: bs =>
    if matchesHere pat (b :: bs) then some 0
    else (searchIn pat bs).map (· + 1)

/-- The chunk loop of `App::handle_search` (src/app.rs lines 323-354):
starting at offset 0, while `offset < len` read
`block.size + search_len - 1` bytes (`block.size` stays the 2048 from
`Block::new`), record the first match's absolute offset if any, and
advance by exactly `block.size`.  Structural fuel bounds the iteration
count (any fuel `>= len` suffices). -/
def searchGo (pat disk : List Nat) (len : Nat) :
    Nat → Nat → List Nat → Option (List Nat)
  | 0, _, _ => some []
  | fuel + 1, offset, buffer =>
    if offset < len then
      match read_block (WRITE_BLOCK + pat.length - 1) offset len disk buffer with
      | none => none
      | some buf2 =>
        match searchGo pat disk len fuel (offset + WRITE_BLOCK) buf2 with
        | none => none
        | some hits =>
          some ((match searchIn pat buf2 with
                 | some r => [offset + r]
                 | none => []) ++ hits)
    else some []

/-- `App::handle_search`: scan the whole file, producing the new hit
group's offsets in the order they were pushed. -/
def handle_search (pat disk : List Nat) : Option (List Nat) :=
  searchGo pat disk disk.length disk.length 0 []

/-- The pattern occurs in the file at absolute offset `i`. -/
def occursAt (pat disk : List Nat) (i : Nat) : Prop :=
  matchesHere pat (disk.drop i) = true

/-- The 4096-byte file of the (amended) concrete search scenario:
`"AB"` (bytes 65, 66) at offsets 10, 2050 and 2052, zeros elsewhere. -/
def diskC5 : List Nat :=
  List.replicate 10 0 ++ ([65, 66] ++ (List.replicate 2038 0 ++
    ([65, 66, 65, 66] ++ List.replicate 2042 0)))

/-- The extended read of chunk 0: bytes `[0, 2049)` of the file. -/
def bufC5a : List Nat :=
  List.replicate 10 0 ++ ([65, 66] ++ List.replicate 2037 0)

/-- The extended read of chunk 1: bytes `[2048, 4096)` plus one `0xFF`
padding byte. -/
def bufC5b : List Nat :=
  List.replicate 2 0 ++ ([65, 66, 65, 66] ++
    (List.replicate 2042 0 ++ [255]))

/-- `regionsDisjointB`: consecutive aligned write regions do not overlap
(the region of each patch ends before the next one starts). -/
def regionsDisjointB : Patch → Bool
  | [] => true
  | [_] => true
  | a :: b :: rest =>
    decide (alignDown a.1 + roundUpBlock a.2.length ≤ alignDown b.1) &&
      regionsDisjointB (b :: rest)

/-- The write log the region loop is specified to produce: one `(at, size)`
pair per patch whose region end exceeds the running previous end. -/
def specLog : Patch → Nat → List (Nat × Nat)
  | [], _ => []
  | (k, v) :: rest, prev =>
    let rs := alignDown k
    let sz := roundUpBlock v.length
    if prev < rs + sz then (rs, sz) :: specLog rest (rs + sz)
    else specLog rest prev

example : read_block 8 2 4 [1,2,3,4] [] = some [3,4,255,255,255,255,255,255] := by decide

example : read_block 4 6 4 [1,2,3,4] [9,9,9,9,9] = some [255,255,255,255,9] := by decide

example : read_block 4 6 4 [1,2,3,4] [9] = none := by decide

example : spliceList [1,2,3,4] 1 [8,9] = some [1,8,9,4] := by decide

example : spliceList [1,2,3,4] 3 [8,9] = none := by decide

example : pinsert 2 [7] [(1,[5]),(3,[6])] = [(1,[5]),(2,[7]),(3,[6])] := by decide

example : pinsert 3 [7] [(1,[5]),(3,[6])] = [(1,[5]),(3,[7])] := by decide

example : editedDisk [(1,[8,9])] [1,2,3,4] = [1,8,9,4] := by decide

theorem byteAt_nil (i : Nat) : byteAt [] i = 0 := by cases i <;> rfl

theorem byteAt_append_lt (l r : List Nat) (i : Nat) (h : i < l.length) :
    byteAt (l ++ r) i = byteAt l i := by
  induction l generalizing i with
  | nil => simp at h
  | cons b rest ih =>
    cases i with
    | zero => rfl
    | succ j => exact ih j (by simpa using h)

theorem byteAt_append_ge (l r : List Nat) (i : Nat) (h : l.length ≤ i) :
    byteAt (l ++ r) i = byteAt r (i - l.length) := by
  induction l generalizing i with
  | nil => simp [byteAt]
  | cons b rest ih =>
    cases i with
    | zero => simp at h
    | succ j => simpa [byteAt] using ih j (by simpa using h)

theorem byteAt_replicate (n x i : Nat) :
    byteAt (List.replicate n x) i = if i < n then x else 0 := by
  induction n generalizing i with
  | zero => simp [byteAt_nil]
  | succ m ih =>
    cases i with
    | zero => simp [List.replicate, byteAt]
    | succ j => simp [List.replicate, byteAt, ih j, Nat.succ_lt_succ_iff]

theorem byteAt_take (l : List Nat) (n i : Nat) (h : i < n) :
    byteAt (l.take n) i = byteAt l i := by
  induction l generalizing n i with
  | nil => simp
  | cons b rest ih =>
    cases n with
    | zero => omega
    | succ m =>
      cases i with
      | zero => rfl
      | succ j => exact ih m j (by omega)

theorem byteAt_drop (l : List Nat) (n i : Nat) :
    byteAt (l.drop n) i = byteAt l (n + i) := by
  induction n generalizing l with
  | zero => simp
  | succ m ih =>
    cases l with
    | nil => simp [byteAt_nil]
    | cons b rest =>
      have : (m + 1) + i = (m + i) + 1 := by omega
      simp [List.drop, ih rest, this, byteAt]

/-- Characterization of a successful in-file load: `offset < len` with
`len = disk.length` always yields a buffer of length exactly `size`, the
on-disk bytes up to end-of-file and `0xFF` beyond it. -/
theorem read_block_spec (size offset : Nat) (disk buffer : List Nat)
    (h : offset < disk.length) :
    ∃ w, read_block size offset disk.length disk buffer = some w ∧
      w.length = size ∧
      (∀ j, j < size → byteAt w j =
        if j < disk.length - offset then byteAt disk (offset + j) else 255) := by
  have ht : ((disk.drop offset).take (min size (disk.length - offset))).length
      = min size (disk.length - offset) := by
    simp
  refine ⟨(disk.drop offset).take (min size (disk.length - offset)) ++
      List.replicate (size - min size (disk.length - offset)) 255, ?_, ?_, ?_⟩
  · simp [read_block, h]
  · rw [List.length_append, ht, List.length_replicate]
    omega
  · intro j hj
    by_cases hcase : j < min size (disk.length - offset)
    · rw [byteAt_append_lt _ _ j (by omega), byteAt_take _ _ _ hcase, byteAt_drop]
      have : j < disk.length - offset := by omega
      simp [this]
    · rw [byteAt_append_ge _ _ j (by omega), ht, byteAt_replicate]
      have h1 : ¬ (j < disk.length - offset) := by omega
      have h2 : j - min size (disk.length - offset)
          < size - min size (disk.length - offset) := by omega
      simp [h1, h2]

/-- Claim C9 (confirmed): when `offset >= len`, `Files::read_block` does no
seek and no read (its result does not depend on the disk contents), does
not resize the caller's buffer, fills `buffer[0..size]` with `0xFF` — which
is only in bounds when the buffer already has length at least `size`, and
panics otherwise; in particular the very first load of a zero-length file
(`len = 0`, fresh zero-length buffer, `size = 2048`) indexes past the
buffer's end. -/
theorem C9_eof_fill_requires_buffer (size offset len : Nat)
    (disk disk2 buffer : List Nat) (h : len ≤ offset) :
    (read_block size offset len disk buffer
        = read_block size offset len disk2 buffer) ∧
    (size ≤ buffer.length →
      read_block size offset len disk buffer
          = some (List.replicate size 255 ++ buffer.drop size) ∧
      (List.replicate size 255 ++ buffer.drop size).length = buffer.length ∧
      (∀ i, i < size →
        byteAt (List.replicate size 255 ++ buffer.drop size) i = 255)) ∧
    (buffer.length < size → read_block size offset len disk buffer = none) ∧
    read_block 2048 0 0 [] [] = none := by
  have hno : ¬ (offset < len) := by omega
  refine ⟨by simp [read_block, hno], ?_, ?_, by decide⟩
  · intro hsz
    refine ⟨by simp [read_block, hno, hsz], by simp; omega, ?_⟩
    intro i hi
    rw [byteAt_append_lt _ _ i (by simp; omega), byteAt_replicate]
    simp [hi]
  · intro hlt
    simp [read_block, hno]
    omega

/-- Witness for C9 at a concrete input. -/
theorem C9_eof_fill_requires_buffer_witness :
    (3 ≤ 5) ∧
    (read_block 2 5 3 [1,2,3] [7,7,7,7] = read_block 2 5 3 [9,9,9] [7,7,7,7]) ∧
    ((2 : Nat) ≤ 4 →
      read_block 2 5 3 [1,2,3] [7,7,7,7]
          = some (List.replicate 2 255 ++ [(7 : Nat),7,7,7].drop 2) ∧
      (List.replicate 2 255 ++ [(7 : Nat),7,7,7].drop 2).length = 4 ∧
      (∀ i, i < 2 →
        byteAt (List.replicate 2 255 ++ [(7 : Nat),7,7,7].drop 2) i = 255)) ∧
    ((4 : Nat) < 2 → read_block 2 5 3 [1,2,3] [7,7,7,7] = none) ∧
    read_block 2048 0 0 [] [] = none := by
  refine ⟨by decide, ?_⟩
  exact C9_eof_fill_requires_buffer 2 5 3 [1,2,3] [9,9,9] [7,7,7,7] (by decide)

/-- Claim C6, counterexample to the literal statement: a load whose
`offset` is at or past end-of-file (here offset 5, size 2 on a 1-byte file,
with a stale 3-byte buffer from an earlier larger load) completes but
leaves `working`/`source` with length 3, not `size = 2`.  The claim's
"for every load where offset+size exceeds the file length" is therefore
false; it only holds when `offset < file_len`. -/
theorem C6_counterexample :
    app_read_block ⟨[7,255,255], [7,255,255], 5, 2, 0, 3⟩ [7]
      = some (⟨[255,255,255], [255,255,255], 5, 2, 5, 2⟩, 1) ∧
    (1 : Nat) < 5 + 2 ∧
    ([(255 : Nat),255,255].length ≠ 2) := by decide

/-- Claim C6 as amended (proved): for every load with `offset < file_len`
and `offset + size > file_len`, the loaded `working` and `source` have
length exactly `size`, bytes before `file_len - offset` equal the on-disk
bytes, and every byte at index `>= file_len - offset` equals `0xFF`. -/
theorem C6_eof_padding (blk : Block) (disk : List Nat)
    (h1 : blk.offset < disk.length)
    (h2 : disk.length < blk.offset + blk.size) :
    ∃ blk2, app_read_block blk disk = some (blk2, disk.length) ∧
      blk2.buffer.length = blk.size ∧
      blk2.source = blk2.buffer ∧
      (∀ i, i < disk.length - blk.offset →
        byteAt blk2.buffer i = byteAt disk (blk.offset + i)) ∧
      (∀ i, disk.length - blk.offset ≤ i → i < blk.size →
        byteAt blk2.buffer i = 255) := by
  obtain ⟨w, hw, hwlen, hwbyte⟩ :=
    read_block_spec blk.size blk.offset disk blk.buffer h1
  refine ⟨{ blk with
              buffer := w,
              source := w,
              prev_offset := blk.offset,
              prev_size := blk.size }, ?_, hwlen, rfl, ?_, ?_⟩
  · simp [app_read_block, hw]
  · intro i hi
    have his : i < blk.size := by omega
    rw [hwbyte i his]
    simp [hi]
  · intro i hge hlt
    rw [hwbyte i hlt]
    have : ¬ (i < disk.length - blk.offset) := by omega
    simp [this]

/-- Witness for C6 as amended at a concrete input. -/
theorem C6_eof_padding_witness :
    ((0 : Nat) < 2 ∧ (2 : Nat) < 0 + 4) ∧
    (∃ blk2, app_read_block ⟨[], [], 0, 4, 0, 0⟩ [1,2] = some (blk2, 2) ∧
      blk2.buffer.length = 4 ∧
      blk2.source = blk2.buffer ∧
      (∀ i, i < 2 - 0 → byteAt blk2.buffer i = byteAt [1,2] (0 + i)) ∧
      (∀ i, 2 - 0 ≤ i → i < 4 → byteAt blk2.buffer i = 255)) := by
  refine ⟨⟨by decide, by decide⟩, ?_⟩
  exact C6_eof_padding ⟨[], [], 0, 4, 0, 0⟩ [1,2] (by decide) (by decide)

/-- Pointwise characterization of an in-bounds `Vec::splice` overwrite. -/
theorem spliceList_spec (buf v : List Nat) (bmin : Nat)
    (h : bmin + v.length ≤ buf.length) :
    ∃ buf2, spliceList buf bmin v = some buf2 ∧
      buf2.length = buf.length ∧
      (∀ j, byteAt buf2 j =
        if bmin ≤ j ∧ j < bmin + v.length then byteAt v (j - bmin)
        else byteAt buf j) := by
  have htl : (buf.take bmin).length = bmin := by simp; omega
  refine ⟨buf.take bmin ++ v ++ buf.drop (bmin + v.length), ?_, ?_, ?_⟩
  · simp [spliceList, h]
  · simp; omega
  · intro j
    by_cases h1 : j < bmin
    · rw [byteAt_append_lt, byteAt_append_lt _ _ j (by omega),
        byteAt_take _ _ _ h1]
      · simp [Nat.not_le_of_lt h1]
      · simp; omega
    · by_cases h2 : j < bmin + v.length
      · rw [byteAt_append_lt _ _ j (by simp; omega),
          byteAt_append_ge _ _ j (by omega), htl]
        have : bmin ≤ j ∧ j < bmin + v.length := ⟨by omega, h2⟩
        simp [this]
      · rw [byteAt_append_ge _ _ j (by simp; omega), byteAt_drop]
        have hlen2 : ((buf.take bmin ++ v)).length = bmin + v.length := by
          simp; omega
        have : ¬ (bmin ≤ j ∧ j < bmin + v.length) := by omega
        simp only [hlen2, this, if_false]
        congr 1
        omega

/-- Splicing an entry list succeeds and preserves the buffer length when
every entry fits; the result reads back as the last covering run. -/
theorem applyEntries_spec (minOff : Nat) (entries : Patch) (buf : List Nat)
    (hfit : ∀ kv ∈ entries, kv.1 - minOff + kv.2.length ≤ buf.length)
    (hmin : ∀ kv ∈ entries, minOff ≤ kv.1) :
    ∃ buf2, applyEntries minOff entries buf = some buf2 ∧
      buf2.length = buf.length ∧
      (∀ j, byteAt buf2 j =
        match lastCovering (minOff + j) entries with
        | some kv => byteAt kv.2 (minOff + j - kv.1)
        | none => byteAt buf j) := by
  induction entries generalizing buf with
  | nil => exact ⟨buf, rfl, rfl, fun j => by simp [lastCovering]⟩
  | cons kv rest ih =>
    have hk := hmin kv (by simp)
    have hf := hfit kv (by simp)
    obtain ⟨buf1, hs, hlen1, hpt1⟩ := spliceList_spec buf kv.2 (kv.1 - minOff) hf
    obtain ⟨buf2, ha, hlen2, hpt2⟩ :=
      ih buf1 (fun e he => by rw [hlen1]; exact hfit e (by simp [he]))
        (fun e he => hmin e (by simp [he]))
    refine ⟨buf2, ?_, by rw [hlen2, hlen1], ?_⟩
    · simp [applyEntries, hs, ha]
    · intro j
      rw [hpt2 j]
      cases hlc : lastCovering (minOff + j) rest with
      | some e => simp [lastCovering, hlc]
      | none =>
        simp only [lastCovering, hlc]
        rw [hpt1 j]
        by_cases hcov : kv.1 ≤ minOff + j ∧ minOff + j < kv.1 + kv.2.length
        · have hloc : kv.1 - minOff ≤ j ∧ j < kv.1 - minOff + kv.2.length := by
            omega
          have hidx : j - (kv.1 - minOff) = minOff + j - kv.1 := by omega
          simp [hcov, hloc, hidx]
        · have hloc : ¬ (kv.1 - minOff ≤ j ∧ j < kv.1 - minOff + kv.2.length) := by
            omega
          simp [hcov, hloc]
          intro h1 h2
          exact absurd ⟨by omega, h2⟩ hloc

/-- If some entry does not fit in the buffer, the splice loop panics. -/
theorem applyEntries_none (minOff : Nat) (entries : Patch) (buf : List Nat)
    (hbad : ∃ kv, kv ∈ entries ∧ buf.length < kv.1 - minOff + kv.2.length) :
    applyEntries minOff entries buf = none := by
  induction entries generalizing buf with
  | nil => obtain ⟨kv, hm, _⟩ := hbad; simp at hm
  | cons kv0 rest ih =>
    obtain ⟨kv, hm, hb⟩ := hbad
    by_cases hfit0 : kv0.1 - minOff + kv0.2.length ≤ buf.length
    · obtain ⟨buf1, hs, hlen1, _⟩ := spliceList_spec buf kv0.2 (kv0.1 - minOff) hfit0
      have hkv : kv ∈ rest := by
        rcases List.mem_cons.mp hm with h | h
        · subst h; omega
        · exact h
      simp [applyEntries, hs]
      exact ih buf1 ⟨kv, hkv, by rw [hlen1]; exact hb⟩
    · have : spliceList buf (kv0.1 - minOff) kv0.2 = none := by
        simp [spliceList]; omega
      simp [applyEntries, this]

/-- Claim C7, counterexample to the literal statement: a 4-byte window at
offset 0 with a patch run keyed at 2 of length 3 (key in window, run past
the upper edge).  `do_apply_patch` does not clip: the splice range `2..5`
leaves the 4-byte working vector, so the call panics (`none`) instead of
splicing the in-window prefix. -/
theorem C7_counterexample :
    do_apply_patch ⟨[1,2,3,4], [1,2,3,4], 0, 4, 0, 0⟩ [(2, [9,9,9])] = none ∧
    ((0 : Nat) ≤ 2 ∧ (2 : Nat) < 0 + 4) ∧
    (0 + 4 < 2 + 3) ∧
    ([(1 : Nat),2,3,4]).length = 4 := by decide

/-- Claim C7 as amended (proved): `do_apply_patch` performs no clipping.
When every in-window run fits inside the working buffer the overlay is
spliced run-for-run and the buffer keeps its length; but whenever an
in-window run extends past the window's upper edge (buffer length =
`size`), the splice is out of range and the call panics (`none`) rather
than splicing a clipped prefix. -/
theorem C7_overlay_no_clipping (blk : Block) (patch : Patch)
    (hlen : blk.buffer.length = blk.size) :
    ((∀ kv ∈ patch, blk.offset ≤ kv.1 → kv.1 < blk.offset + blk.size →
        kv.1 - blk.offset + kv.2.length ≤ blk.size) →
      ∃ blk2, do_apply_patch blk patch = some blk2 ∧
        blk2.buffer.length = blk.size ∧ blk2.offset = blk.offset ∧
        blk2.size = blk.size ∧ blk2.source = blk.source) ∧
    ((∃ kv, kv ∈ patch ∧ blk.offset ≤ kv.1 ∧ kv.1 < blk.offset + blk.size ∧
        blk.offset + blk.size < kv.1 + kv.2.length) →
      do_apply_patch blk patch = none) := by
  constructor
  · intro hfit
    have hfit2 : ∀ kv ∈ inRangeEntries blk.offset (blk.offset + blk.size) patch,
        kv.1 - blk.offset + kv.2.length ≤ blk.buffer.length := by
      intro kv hkv
      obtain ⟨hmem, hrange⟩ := List.mem_filter.mp hkv
      have := of_decide_eq_true hrange
      rw [hlen]
      exact hfit kv hmem this.1 this.2
    have hmin2 : ∀ kv ∈ inRangeEntries blk.offset (blk.offset + blk.size) patch,
        blk.offset ≤ kv.1 := by
      intro kv hkv
      exact (of_decide_eq_true (List.mem_filter.mp hkv).2).1
    obtain ⟨buf2, ha, hlen2, _⟩ :=
      applyEntries_spec blk.offset _ blk.buffer hfit2 hmin2
    exact ⟨{ blk with buffer := buf2 }, by simp [do_apply_patch, ha],
      by simpa [hlen] using hlen2, rfl, rfl, rfl⟩
  · intro hbad
    obtain ⟨kv, hmem, hge, hlt, hover⟩ := hbad
    have hin : kv ∈ inRangeEntries blk.offset (blk.offset + blk.size) patch :=
      List.mem_filter.mpr ⟨hmem, decide_eq_true ⟨hge, hlt⟩⟩
    have : applyEntries blk.offset
        (inRangeEntries blk.offset (blk.offset + blk.size) patch)
        blk.buffer = none :=
      applyEntries_none _ _ _ ⟨kv, hin, by rw [hlen]; omega⟩
    simp [do_apply_patch, this]

/-- Witness for C7 as amended at concrete inputs (both conjuncts). -/
theorem C7_overlay_no_clipping_witness :
    ([(1 : Nat),2,3]).length = 3 ∧
    (∃ blk2, do_apply_patch ⟨[1,2,3], [1,2,3], 0, 3, 0, 0⟩ [(1, [9])]
        = some blk2 ∧
      blk2.buffer.length = 3 ∧ blk2.offset = 0 ∧ blk2.size = 3 ∧
      blk2.source = [1,2,3]) ∧
    do_apply_patch ⟨[1,2,3], [1,2,3], 0, 3, 0, 0⟩ [(2, [9,9])] = none := by
  refine ⟨by decide, ?_, ?_⟩
  · exact (C7_overlay_no_clipping ⟨[1,2,3], [1,2,3], 0, 3, 0, 0⟩ [(1, [9])]
      (by decide)).1 (by decide)
  · exact (C7_overlay_no_clipping ⟨[1,2,3], [1,2,3], 0, 3, 0, 0⟩ [(2, [9,9])]
      (by decide)).2 ⟨(2, [9,9]), by decide, by decide, by decide, by decide⟩

theorem plookup_pinsert_self (k : Nat) (v : List Nat) (p : Patch) :
    plookup k (pinsert k v p) = some v := by
  induction p with
  | nil => simp [pinsert, plookup]
  | cons kv rest ih =>
    by_cases h1 : k < kv.1
    · simp [pinsert, h1, plookup]
    · by_cases h2 : k = kv.1
      · simp [pinsert, h1, h2, plookup]
      · have : kv.1 ≠ k := fun hc => h2 hc.symm
        simp [pinsert, h1, h2, plookup, this, ih]

theorem plookup_pinsert_other (k k2 : Nat) (v : List Nat) (p : Patch)
    (h : k2 ≠ k) :
    plookup k2 (pinsert k v p) = plookup k2 p := by
  have h' : ¬ (k = k2) := fun hc => h hc.symm
  induction p with
  | nil => simp [pinsert, plookup, h']
  | cons kv rest ih =>
    by_cases h1 : k < kv.1
    · simp [pinsert, h1, plookup, h']
    · by_cases h2 : k = kv.1
      · have h'' : ¬ (kv.1 = k2) := by rw [← h2]; exact h'
        simp [pinsert, h1, h2, plookup, h', h'']
      · simp [pinsert, h1, h2, plookup, ih]

/-- `do_undo` on a stack holding at least two entries, fully computed. -/
theorem do_undo_two (s : EditState) (d2 d1 : Data) (rest : List Data)
    (h : s.undo = d2 :: d1 :: rest) :
    do_undo s =
      ⟨pinsert d1.offset d1.data (pinsert d2.offset d2.data s.patch),
       rest, d1 :: d2 :: s.redo⟩ := by
  cases s with
  | mk patch undo redo =>
    simp only [EditState.mk.injEq] at h ⊢
    subst h
    simp [do_undo, undoStep]

/-- `do_redo` on a stack holding at least two entries, fully computed. -/
theorem do_redo_two (s : EditState) (e2 e1 : Data) (rest : List Data)
    (h : s.redo = e2 :: e1 :: rest) :
    do_redo s =
      ⟨pinsert e1.offset e1.data (pinsert e2.offset e2.data s.patch),
       e1 :: e2 :: s.undo, rest⟩ := by
  cases s with
  | mk patch undo redo =>
    simp only [EditState.mk.injEq] at h ⊢
    subst h
    simp [do_redo, redoStep]

/-- Claim C4 (confirmed): after a single edit at offset `k` (which pushed
the pre-edit bytes, then the post-edit bytes, onto the undo stack for the
same offset), `do_undo` followed by `do_redo` restores the overlay entry at
`k` to the post-edit bytes — and in fact leaves the overlay at every other
key, the undo stack and the redo stack exactly as they were. -/
theorem C4_undo_redo_inverse (s : EditState) (dpre dpost : Data)
    (rest : List Data) (k : Nat)
    (h1 : s.undo = dpost :: dpre :: rest)
    (h2 : dpre.offset = k) (h3 : dpost.offset = k) :
    plookup k (do_redo (do_undo s)).patch = some dpost.data ∧
    (∀ k2, k2 ≠ k →
      plookup k2 (do_redo (do_undo s)).patch = plookup k2 s.patch) ∧
    (do_redo (do_undo s)).undo = s.undo ∧
    (do_redo (do_undo s)).redo = s.redo := by
  have hu := do_undo_two s dpost dpre rest h1
  have hredo : (do_undo s).redo = dpre :: dpost :: s.redo := by rw [hu]
  have hundo : (do_undo s).undo = rest := by rw [hu]
  have hpatch : (do_undo s).patch
      = pinsert dpre.offset dpre.data (pinsert dpost.offset dpost.data s.patch) := by
    rw [hu]
  have hr := do_redo_two (do_undo s) dpre dpost s.redo hredo
  refine ⟨?_, ?_, ?_, ?_⟩
  · rw [hr]
    show plookup k (pinsert dpost.offset dpost.data
        (pinsert dpre.offset dpre.data (do_undo s).patch)) = some dpost.data
    rw [h3, plookup_pinsert_self]
  · intro k2 hk2
    rw [hr]
    show plookup k2 (pinsert dpost.offset dpost.data
        (pinsert dpre.offset dpre.data (do_undo s).patch)) = plookup k2 s.patch
    rw [h3, plookup_pinsert_other _ _ _ _ hk2, h2,
      plookup_pinsert_other _ _ _ _ hk2, hpatch, h2, h3,
      plookup_pinsert_other _ _ _ _ hk2, plookup_pinsert_other _ _ _ _ hk2]
  · rw [hr]
    show dpost :: dpre :: (do_undo s).undo = s.undo
    rw [hundo]
    exact h1.symm
  · rw [hr]

/-- Witness for C4 at a concrete input. -/
theorem C4_undo_redo_inverse_witness :
    plookup 5 (do_redo (do_undo
        ⟨[(5, [9])], [⟨5, [9]⟩, ⟨5, [7]⟩], []⟩)).patch = some [9] ∧
    (∀ k2, k2 ≠ 5 →
      plookup k2 (do_redo (do_undo
          ⟨[(5, [9])], [⟨5, [9]⟩, ⟨5, [7]⟩], []⟩)).patch
        = plookup k2 [(5, [9])]) ∧
    (do_redo (do_undo ⟨[(5, [9])], [⟨5, [9]⟩, ⟨5, [7]⟩], []⟩)).undo
      = [⟨5, [9]⟩, ⟨5, [7]⟩] ∧
    (do_redo (do_undo ⟨[(5, [9])], [⟨5, [9]⟩, ⟨5, [7]⟩], []⟩)).redo = [] :=
  C4_undo_redo_inverse ⟨[(5, [9])], [⟨5, [9]⟩, ⟨5, [7]⟩], []⟩
    ⟨5, [7]⟩ ⟨5, [9]⟩ [] 5 rfl rfl rfl

/-- Claim C10, counterexample to the final clause: with the undo stack
holding the pair d1 = (0,[1]) (older) and d2 = (0,[2]) (newer), `do_undo`
then `do_redo` leaves the undo stack holding the pair in its ORIGINAL
order (d2 on top), not in swapped order, and the redo stack empty. -/
theorem C10_counterexample :
    (do_redo (do_undo ⟨[], [⟨0, [2]⟩, ⟨0, [1]⟩], []⟩)).undo
        = [⟨0, [2]⟩, ⟨0, [1]⟩] ∧
    (do_redo (do_undo ⟨[], [⟨0, [2]⟩, ⟨0, [1]⟩], []⟩)).undo
        ≠ [⟨0, [1]⟩, ⟨0, [2]⟩] ∧
    (do_redo (do_undo ⟨[], [⟨0, [2]⟩, ⟨0, [1]⟩], []⟩)).redo = [] := by
  decide

/-- Claim C10 as amended (proved): for an undo stack whose two most recent
entries are d1 (older) then d2 (newer), `do_undo` pops d2 then d1, applies
d2 then d1 to the overlay (so at a shared offset d1's bytes win), and
pushes d2 then d1 onto redo, leaving the pair's order on redo reversed
relative to the undo stack; `do_redo` is the exact mirror; hence `do_undo`
followed by `do_redo` restores both logs to their original contents and
order (the two reversals cancel — the order is NOT swapped). -/
theorem C10_undo_redo_pair_order (s : EditState) (d1 d2 : Data)
    (rest : List Data) (h : s.undo = d2 :: d1 :: rest) :
    do_undo s =
      ⟨pinsert d1.offset d1.data (pinsert d2.offset d2.data s.patch),
       rest, d1 :: d2 :: s.redo⟩ ∧
    (d1.offset = d2.offset →
      plookup d1.offset (do_undo s).patch = some d1.data) ∧
    do_redo (do_undo s) =
      ⟨pinsert d2.offset d2.data (pinsert d1.offset d1.data
          (do_undo s).patch),
       d2 :: d1 :: rest, s.redo⟩ ∧
    (do_redo (do_undo s)).undo = s.undo ∧
    (do_redo (do_undo s)).redo = s.redo := by
  have hu := do_undo_two s d2 d1 rest h
  have hredo : (do_undo s).redo = d1 :: d2 :: s.redo := by rw [hu]
  have hundo : (do_undo s).undo = rest := by rw [hu]
  have hr := do_redo_two (do_undo s) d1 d2 s.redo hredo
  refine ⟨hu, ?_, ?_, ?_, ?_⟩
  · intro heq
    rw [hu]
    show plookup d1.offset (pinsert d1.offset d1.data
        (pinsert d2.offset d2.data s.patch)) = some d1.data
    rw [plookup_pinsert_self]
  · rw [hr, hundo]
  · rw [hr]
    show d2 :: d1 :: (do_undo s).undo = s.undo
    rw [hundo]
    exact h.symm
  · rw [hr]

/-- Witness for C10 as amended at a concrete input. -/
theorem C10_undo_redo_pair_order_witness :
    do_undo ⟨[], [⟨0, [2]⟩, ⟨3, [1]⟩], []⟩ =
      ⟨pinsert 3 [1] (pinsert 0 [2] []), [], [⟨3, [1]⟩, ⟨0, [2]⟩]⟩ ∧
    ((3 : Nat) = 0 →
      plookup 3 (do_undo ⟨[], [⟨0, [2]⟩, ⟨3, [1]⟩], []⟩).patch = some [1]) ∧
    do_redo (do_undo ⟨[], [⟨0, [2]⟩, ⟨3, [1]⟩], []⟩) =
      ⟨pinsert 0 [2] (pinsert 3 [1]
          (do_undo ⟨[], [⟨0, [2]⟩, ⟨3, [1]⟩], []⟩).patch),
       [⟨0, [2]⟩, ⟨3, [1]⟩], []⟩ ∧
    (do_redo (do_undo ⟨[], [⟨0, [2]⟩, ⟨3, [1]⟩], []⟩)).undo
        = [⟨0, [2]⟩, ⟨3, [1]⟩] ∧
    (do_redo (do_undo ⟨[], [⟨0, [2]⟩, ⟨3, [1]⟩], []⟩)).redo = [] :=
  C10_undo_redo_pair_order ⟨[], [⟨0, [2]⟩, ⟨3, [1]⟩], []⟩ ⟨3, [1]⟩ ⟨0, [2]⟩
    [] rfl

/-- Claim C8 (confirmed): for every keystroke whose accumulated digits do
not decode as an unsigned integer of the element's bit width, the per-file
state (working buffer, patch overlay, undo and redo logs) is completely
unchanged; the only changes are the digit-buffer slot at `insert_index`
(left alone for the `.` skip marker) and the digit cursor, which advances
by one and wraps to 0 at the element's digit width. -/
theorem C8_failed_decode_frame (tab : Tab) (fi : AppFile) (c : Nat)
    (h : do_flush_input
        (if c ≠ 46 then tab.insert_vector.set tab.insert_index c
         else tab.insert_vector)
        (element_input_size tab) (element_display_size tab.element_display)
        (element_mode_base tab.element_mode) = none) :
    handle_insert tab fi c =
      some ({ tab with
                insert_vector :=
                  if c ≠ 46 then tab.insert_vector.set tab.insert_index c
                  else tab.insert_vector,
                insert_index :=
                  if element_input_size tab ≤ tab.insert_index + 1 then 0
                  else tab.insert_index + 1 },
            fi) := by
  simp only [handle_insert, h]
  rfl

/-- Witness for C8 at a concrete input: keystroke `0` (ASCII 48) on a fresh
hex/byte tab whose remaining digit slot still holds the NUL filler, so the
two digits `"0\x00"` do not parse. -/
theorem C8_failed_decode_frame_witness :
    do_flush_input ((List.replicate 64 0).set 0 48) 2 1 16 = none ∧
    handle_insert
        ⟨16, .byte, .hex, 0, List.replicate 64 0, 0, 0⟩
        ⟨⟨[1,2,3], [1,2,3], 0, 3, 0, 0⟩, [], [], []⟩ 48 =
      some (⟨16, .byte, .hex, 1, (List.replicate 64 0).set 0 48, 0, 0⟩,
            ⟨⟨[1,2,3], [1,2,3], 0, 3, 0, 0⟩, [], [], []⟩) := by
  constructor
  · decide
  · have := C8_failed_decode_frame
      ⟨16, .byte, .hex, 0, List.replicate 64 0, 0, 0⟩
      ⟨⟨[1,2,3], [1,2,3], 0, 3, 0, 0⟩, [], [], []⟩ 48 (by decide)
    simpa using this

theorem matchesHere_length (pat buf : List Nat)
    (h : matchesHere pat buf = true) : pat.length ≤ buf.length := by
  induction pat generalizing buf with
  | nil => simp
  | cons p ps ih =>
    cases buf with
    | nil => simp [matchesHere] at h
    | cons b bs =>
      simp only [matchesHere, Bool.and_eq_true] at h
      simpa using ih bs h.2

theorem matchesHere_byteAt (pat buf : List Nat)
    (h : matchesHere pat buf = true) :
    ∀ j, j < pat.length → byteAt buf j = byteAt pat j := by
  induction pat generalizing buf with
  | nil => intro j hj; simp at hj
  | cons p ps ih =>
    cases buf with
    | nil => simp [matchesHere] at h
    | cons b bs =>
      simp only [matchesHere, Bool.and_eq_true, beq_iff_eq] at h
      intro j hj
      cases j with
      | zero => simpa [byteAt] using h.1.symm
      | succ i => exact ih bs h.2 i (by simpa using hj)

theorem searchIn_le (pat : List Nat) :
    ∀ (buf : List Nat) (r : Nat), searchIn pat buf = some r →
      r + pat.length ≤ buf.length := by
  intro buf
  induction buf with
  | nil =>
    intro r h
    by_cases hm : matchesHere pat [] = true
    · simp [searchIn, hm] at h
      subst h
      simpa using matchesHere_length pat [] hm
    · simp [searchIn, hm] at h
  | cons b bs ih =>
    intro r h
    by_cases hm : matchesHere pat (b :: bs) = true
    · simp [searchIn, hm] at h
      subst h
      simpa using matchesHere_length pat (b :: bs) hm
    · simp [searchIn, hm] at h
      obtain ⟨r2, hr2, hadd⟩ := h
      have := ih r2 hr2
      simp only [List.length_cons]
      omega

/-- Claim C5, counterexample to the concrete scenario as stated: no file
whatsoever can contain the two-byte pattern `"AB"` (bytes 65, 66) at both
offset 2050 and offset 2051 — byte 2051 would have to be 66 (from the
match at 2050) and 65 (from the match at 2051) at once.  The stated
scenario is unrealizable, so the claim holds only vacuously. -/
theorem C5_counterexample :
    ¬ ∃ disk : List Nat, disk.length = 4096 ∧
      occursAt [65, 66] disk 10 ∧ occursAt [65, 66] disk 2050 ∧
      occursAt [65, 66] disk 2051 := by
  rintro ⟨disk, _, _, h50, h51⟩
  have hb1 : byteAt (disk.drop 2050) 1 = byteAt [65, 66] 1 :=
    matchesHere_byteAt _ _ h50 1 (by simp)
  have hb2 : byteAt (disk.drop 2051) 0 = byteAt [65, 66] 0 :=
    matchesHere_byteAt _ _ h51 0 (by simp)
  rw [byteAt_drop] at hb1 hb2
  have e1 : byteAt disk 2051 = 66 := by simpa [byteAt] using hb1
  have e2 : byteAt disk 2051 = 65 := by simpa [byteAt] using hb2
  omega

theorem read_block_length (size offset : Nat) (disk buffer w : List Nat)
    (h : offset < disk.length)
    (hw : read_block size offset disk.length disk buffer = some w) :
    w.length = size := by
  obtain ⟨w2, hw2, hlen, _⟩ := read_block_spec size offset disk buffer h
  rw [hw] at hw2
  rw [Option.some.inj hw2]
  exact hlen

/-- Every hit list the chunk loop produces is strictly ascending with at
most one hit per 2048-byte chunk (hits in distinct chunks). -/
theorem searchGo_bounds (pat disk : List Nat) (hp : pat ≠ []) :
    ∀ (fuel offset : Nat) (buffer hits : List Nat),
      offset % WRITE_BLOCK = 0 →
      searchGo pat disk disk.length fuel offset buffer = some hits →
      (∀ h2, h2 ∈ hits → offset ≤ h2) ∧
      List.Pairwise (fun a b => a < b ∧ a / WRITE_BLOCK < b / WRITE_BLOCK)
        hits := by
  intro fuel
  induction fuel with
  | zero =>
    intro offset buffer hits _ hg
    simp only [searchGo, Option.some.injEq] at hg
    subst hg
    simp
  | succ n ih =>
    intro offset buffer hits halign hg
    by_cases ho : offset < disk.length
    · simp only [searchGo] at hg
      rw [if_pos ho] at hg
      split at hg
      · exact absurd hg (by simp)
      · rename_i buf2 hrb
        split at hg
        · exact absurd hg (by simp)
        · rename_i hits2 hrec
          obtain ⟨ihb, ihp⟩ := ih (offset + WRITE_BLOCK) buf2 hits2
            (by rw [Nat.add_mod_right]; exact halign) hrec
          simp only [Option.some.injEq] at hg
          subst hg
          cases hsi : searchIn pat buf2 with
          | none =>
            simp only [hsi, List.nil_append]
            exact ⟨fun h2 hm =>
              le_trans (Nat.le_add_right _ _) (ihb h2 hm), ihp⟩
          | some r =>
            simp only [hsi, List.singleton_append]
            have hrlen := searchIn_le pat buf2 r hsi
            have hblen : buf2.length = WRITE_BLOCK + pat.length - 1 :=
              read_block_length _ _ _ _ _ ho hrb
            have hplen : 1 ≤ pat.length := by
              cases pat with
              | nil => exact absurd rfl hp
              | cons a l => simp
            have hWB : WRITE_BLOCK = 2048 := rfl
            have hr : r < WRITE_BLOCK := by
              rw [hWB] at hblen ⊢
              omega
            constructor
            · intro h2 hm
              rcases List.mem_cons.mp hm with h | h
              · subst h; exact Nat.le_add_right _ _
              · exact le_trans (Nat.le_add_right _ _) (ihb h2 h)
            · refine List.Pairwise.cons ?_ ihp
              intro b hb
              have hob := ihb b hb
              rw [hWB] at hob hr halign ⊢
              constructor
              · omega
              · omega
    · simp only [searchGo] at hg
      rw [if_neg ho] at hg
      simp only [Option.some.injEq] at hg
      subst hg
      simp

theorem searchIn_zeros (p0 : Nat) (pr rest : List Nat) (n : Nat)
    (h : p0 ≠ 0) :
    searchIn (p0 :: pr) (List.replicate n 0 ++ rest)
      = (searchIn (p0 :: pr) rest).map (· + n) := by
  induction n with
  | zero =>
    simp only [List.replicate, List.nil_append]
    cases searchIn (p0 :: pr) rest <;> simp
  | succ m ih =>
    have hsplit : List.replicate (m + 1) 0 ++ rest
        = 0 :: (List.replicate m 0 ++ rest) := by
      simp [List.replicate]
    rw [hsplit]
    have hm : matchesHere (p0 :: pr) (0 :: (List.replicate m 0 ++ rest))
        = false := by
      simp [matchesHere, h]
    simp only [searchIn, hm, Bool.false_eq_true, if_false, ih]
    cases searchIn (p0 :: pr) rest
    all_goals simp
    all_goals omega

/-- One executed chunk iteration of the search loop that records a hit. -/
theorem searchGo_step (pat disk : List Nat) (len fuel offset : Nat)
    (buffer buf2 hits : List Nat) (r : Nat)
    (ho : offset < len)
    (hrb : read_block (WRITE_BLOCK + pat.length - 1) offset len disk buffer
        = some buf2)
    (hsi : searchIn pat buf2 = some r)
    (hrec : searchGo pat disk len fuel (offset + WRITE_BLOCK) buf2
        = some hits) :
    searchGo pat disk len (fuel + 1) offset buffer
      = some ((offset + r) :: hits) := by
  simp [searchGo, ho, hrb, hsi, hrec]

/-- The loop's final iteration: the offset has reached the file length. -/
theorem searchGo_last (pat disk : List Nat) (len fuel offset : Nat)
    (buffer : List Nat) (ho : ¬ offset < len) :
    searchGo pat disk len (fuel + 1) offset buffer = some [] := by
  simp [searchGo, ho]

theorem diskC5_length : diskC5.length = 4096 := by
  simp [diskC5, -List.reduceReplicate]

theorem rbC5a : read_block 2049 0 4096 diskC5 [] = some bufC5a := by
  simp [read_block, diskC5, bufC5a, List.take_append_eq_append_take,
    List.take_replicate, List.take_of_length_le, -List.reduceReplicate]

theorem rbC5b : read_block 2049 2048 4096 diskC5 bufC5a = some bufC5b := by
  simp [read_block, diskC5, bufC5a, bufC5b,
    List.take_append_eq_append_take, List.drop_append_eq_append_drop,
    List.take_replicate, List.drop_replicate, List.take_of_length_le,
    List.drop_of_length_le, -List.reduceReplicate]

theorem siC5a : searchIn [65, 66] bufC5a = some 10 := by
  have h := searchIn_zeros 65 [66]
    ([65, 66] ++ List.replicate 2037 0) 10 (by norm_num)
  simp only [bufC5a]
  rw [h]
  simp [searchIn, matchesHere]

theorem siC5b : searchIn [65, 66] bufC5b = some 2 := by
  have h := searchIn_zeros 65 [66]
    ([65, 66, 65, 66] ++ (List.replicate 2042 0 ++ [255])) 2 (by norm_num)
  simp only [bufC5b]
  rw [h]
  simp [searchIn, matchesHere]

theorem handle_search_diskC5 : handle_search [65, 66] diskC5 = some [10, 2050] := by
  have h3 : searchGo [65, 66] diskC5 4096 4094 4096 bufC5b = some [] :=
    searchGo_last [65, 66] diskC5 4096 4093 4096 bufC5b (by norm_num)
  have h2 : searchGo [65, 66] diskC5 4096 4095 2048 bufC5a = some [2050] := by
    have := searchGo_step [65, 66] diskC5 4096 4094 2048 bufC5a bufC5b [] 2
      (by norm_num) rbC5b siC5b h3
    simpa using this
  have h1 : searchGo [65, 66] diskC5 4096 4096 0 [] = some [10, 2050] := by
    have := searchGo_step [65, 66] diskC5 4096 4095 0 [] bufC5a [2050] 10
      (by norm_num) rbC5a siC5a h2
    simpa using this
  unfold handle_search
  rw [diskC5_length]
  exact h1

theorem occursAt_diskC5 :
    occursAt [65, 66] diskC5 10 ∧ occursAt [65, 66] diskC5 2050 ∧
    occursAt [65, 66] diskC5 2052 := by
  have hd10 : diskC5.drop 10
      = [65, 66] ++ (List.replicate 2038 0 ++
        ([65, 66, 65, 66] ++ List.replicate 2042 0)) := by
    simp [diskC5, List.drop_append_eq_append_drop, List.drop_replicate,
      List.drop_of_length_le, -List.reduceReplicate]
  have hd50 : diskC5.drop 2050 = [65, 66, 65, 66] ++ List.replicate 2042 0 := by
    simp [diskC5, List.drop_append_eq_append_drop, List.drop_replicate,
      List.drop_of_length_le, -List.reduceReplicate]
  have hd52 : diskC5.drop 2052 = [65, 66] ++ List.replicate 2042 0 := by
    simp [diskC5, List.drop_append_eq_append_drop, List.drop_replicate,
      List.drop_of_length_le, -List.reduceReplicate]
  refine ⟨?_, ?_, ?_⟩
  · rw [occursAt, hd10]
    simp [matchesHere, -List.reduceReplicate]
  · rw [occursAt, hd50]
    simp [matchesHere, -List.reduceReplicate]
  · rw [occursAt, hd52]
    simp [matchesHere, -List.reduceReplicate]

/-- Claim C5 as amended (proved): the search records at most one hit per
2048-byte chunk and returns hits in strictly ascending order (distinct
chunks); concretely, for the 4096-byte file with `"AB"` present at offsets
10, 2050 and 2052 (the claim's occurrence at 2051 is unrealizable — see the
counterexample — and 2052 is the nearest realizable offset), the produced
hit group is exactly `[10, 2050]`: chunk 1's match at 2052 is not recorded
because the chunk already recorded its first hit at 2050. -/
theorem C5_search_single_hit_per_chunk :
    (∀ (pat disk hits : List Nat), pat ≠ [] →
      handle_search pat disk = some hits →
      List.Pairwise (fun a b => a < b ∧ a / WRITE_BLOCK < b / WRITE_BLOCK)
        hits) ∧
    handle_search [65, 66] diskC5 = some [10, 2050] ∧
    diskC5.length = 4096 ∧
    occursAt [65, 66] diskC5 10 ∧ occursAt [65, 66] diskC5 2050 ∧
    occursAt [65, 66] diskC5 2052 := by
  refine ⟨?_, handle_search_diskC5, diskC5_length, occursAt_diskC5.1,
    occursAt_diskC5.2.1, occursAt_diskC5.2.2⟩
  intro pat disk hits hp hh
  unfold handle_search at hh
  exact (searchGo_bounds pat disk hp disk.length 0 [] hits (by simp) hh).2

/-- Witness for C5: the general single-hit-per-chunk part applied to the
concrete scenario itself. -/
theorem C5_search_single_hit_per_chunk_witness :
    ([65, 66] : List Nat) ≠ [] ∧
    List.Pairwise (fun a b => a < b ∧ a / WRITE_BLOCK < b / WRITE_BLOCK)
      [10, 2050] :=
  ⟨by decide,
   C5_search_single_hit_per_chunk.1 [65, 66] diskC5 [10, 2050] (by decide)
     C5_search_single_hit_per_chunk.2.1⟩

/-- On the `Ok` path, every region in the write log passed both its read
and its write fault check. -/
theorem writeLoop_ok_log (env : WriteEnv) (patchAll : Patch) (len : Nat) :
    ∀ (entries : Patch) (prev : Nat) (disk buffer : List Nat)
      (log0 : List (Nat × Nat)) (d b : List Nat) (log : List (Nat × Nat)),
      writeLoop env patchAll len entries prev disk buffer log0
        = some (.ok (d, b, log)) →
      (∀ e ∈ log0, env.rfail e.1 = false ∧ env.wfail e.1 = false) →
      ∀ e ∈ log, env.rfail e.1 = false ∧ env.wfail e.1 = false := by
  intro entries
  induction entries with
  | nil =>
    intro prev disk buffer log0 d b log hg h0
    simp only [writeLoop, Option.some.injEq, Except.ok.injEq,
      Prod.mk.injEq] at hg
    obtain ⟨h1, h2, h3⟩ := hg
    subst h3
    exact h0
  | cons kv rest ih =>
    intro prev disk buffer log0 d b log hg h0
    obtain ⟨k, v⟩ := kv
    simp only [writeLoop] at hg
    split at hg
    · exact absurd hg (by simp)
    · split at hg
      · split at hg
        · exact absurd hg (by simp)
        · rename_i hrf
          split at hg
          · exact absurd hg (by simp)
          · rename_i buf1 hrb
            split at hg
            · exact absurd hg (by simp)
            · rename_i buf2 hap
              split at hg
              · exact absurd hg (by simp)
              · split at hg
                · exact absurd hg (by simp)
                · rename_i hlt hwf
                  refine ih _ _ _ _ d b log hg ?_
                  intro e he
                  rcases List.mem_append.mp he with h | h
                  · exact h0 e h
                  · have he2 : e = (alignDown k, roundUpBlock v.length) := by
                      simpa using h
                    subst he2
                    simp only [Bool.not_eq_true] at hrf hwf
                    exact ⟨hrf, hwf⟩
      · exact ih _ _ _ _ d b log hg h0

/-- With a fault-free environment the loop never takes the IOError early
return. -/
theorem writeLoop_no_fault_no_error (env : WriteEnv) (patchAll : Patch)
    (len : Nat) (hrf : ∀ a, env.rfail a = false)
    (hwf : ∀ a, env.wfail a = false) :
    ∀ (entries : Patch) (prev : Nat) (disk buffer : List Nat)
      (log0 : List (Nat × Nat)) (d : List Nat) (log : List (Nat × Nat)),
      writeLoop env patchAll len entries prev disk buffer log0
        ≠ some (.error (d, log)) := by
  intro entries
  induction entries with
  | nil =>
    intro prev disk buffer log0 d log hg
    simp only [writeLoop, Option.some.injEq] at hg
    exact absurd hg (by simp)
  | cons kv rest ih =>
    intro prev disk buffer log0 d log hg
    obtain ⟨k, v⟩ := kv
    simp only [writeLoop] at hg
    split at hg
    · exact absurd hg (by simp)
    · split at hg
      · split at hg
        · rename_i hr
          rw [hrf (alignDown k)] at hr
          exact absurd hr (by simp)
        · split at hg
          · exact absurd hg (by simp)
          · rename_i buf1 hrb
            split at hg
            · exact absurd hg (by simp)
            · rename_i buf2 hap
              split at hg
              · exact absurd hg (by simp)
              · split at hg
                · rename_i hw
                  rw [hwf (alignDown k)] at hw
                  exact absurd hw (by simp)
                · exact ih _ _ _ _ d log hg
      · exact ih _ _ _ _ d log hg

/-- Claim C3 (confirmed): `Files::write` clears the entire patch overlay
exactly when every region read and write succeeded (returning `Ok`): on the
`Ok` outcome the overlay is empty and every logged region passed both
fault checks; on an `IOError` the overlay is returned untouched (even
though earlier regions may already be on disk); and in a fault-free
environment a completed run is always the `Ok` outcome. -/
theorem C3_flush_overlay_atomicity (env : WriteEnv) (patch : Patch)
    (fisize : Nat) (disk : List Nat) (r : WResult)
    (h : files_write env patch fisize disk = some r) :
    (∀ p2 d2 log, r = .ok p2 d2 log →
      p2 = [] ∧ ∀ e ∈ log, env.rfail e.1 = false ∧ env.wfail e.1 = false) ∧
    (∀ p2 d2 log, r = .ioerr p2 d2 log → p2 = patch) ∧
    ((∀ a, env.rfail a = false) → (∀ a, env.wfail a = false) →
      ∃ d2 log2, r = .ok [] d2 log2) := by
  unfold files_write at h
  split at h
  · exact absurd h (by simp)
  · rename_i d log hloop
    have hr := Option.some.inj h
    subst hr
    refine ⟨by intro p2 d2 log2 he; exact absurd he (by simp), ?_, ?_⟩
    · intro p2 d2 log2 he
      injection he with h1 h2 h3
      exact h1.symm
    · intro hrf hwf
      exact absurd hloop
        (writeLoop_no_fault_no_error env patch disk.length hrf hwf _ _ _ _ _ d log)
  · rename_i d b log hloop
    have hr := Option.some.inj h
    subst hr
    refine ⟨?_, by intro p2 d2 log2 he; exact absurd he (by simp), ?_⟩
    · intro p2 d2 log2 he
      injection he with h1 h2 h3
      subst h1; subst h3
      exact ⟨rfl, writeLoop_ok_log env patch disk.length _ _ _ _ _ d b log
        hloop (by simp)⟩
    · intro _ _
      exact ⟨d, log, rfl⟩

theorem lor_low_2047 (x : Nat) (h : x < 2048) : x ||| 2047 = 2047 := by
  apply Nat.eq_of_testBit_eq
  intro i
  rw [Nat.testBit_or]
  by_cases hi : i < 11
  · have h2047 : (2047 : Nat).testBit i = true := by
      have e : (2047 : Nat) = 2 ^ 11 - 1 := by norm_num
      rw [e, Nat.testBit_two_pow_sub_one]
      simpa using hi
    simp [h2047]
  · have hx : x.testBit i = false := by
      apply Nat.testBit_lt_two_pow
      calc x < 2048 := h
        _ = 2 ^ 11 := by norm_num
        _ ≤ 2 ^ i := Nat.pow_le_pow_right (by norm_num) (by omega)
    have h2 : (2047 : Nat).testBit i = false := by
      apply Nat.testBit_lt_two_pow
      calc (2047 : Nat) < 2 ^ 11 := by norm_num
        _ ≤ 2 ^ i := Nat.pow_le_pow_right (by norm_num) (by omega)
    simp [hx, h2]

/-- For a nonempty run of at most one block, the source's round-up formula
gives exactly one `WRITE_BLOCK`. -/
theorem roundUpBlock_eq (n : Nat) (h1 : 1 ≤ n) (h2 : n ≤ 2048) :
    roundUpBlock n = 2048 := by
  have : roundUpBlock n = ((n - 1) ||| 2047) + 1 := rfl
  rw [this, lor_low_2047 (n - 1) (by omega)]

theorem alignDown_le (k : Nat) : alignDown k ≤ k := by
  have : alignDown k = k - k % 2048 := rfl
  omega

theorem lt_alignDown_add (k : Nat) : k < alignDown k + WRITE_BLOCK := by
  have h1 : alignDown k = k - k % 2048 := rfl
  have h2 : WRITE_BLOCK = 2048 := rfl
  have h3 : k % 2048 < 2048 := Nat.mod_lt _ (by norm_num)
  omega

theorem alignDown_sub (k : Nat) : k - alignDown k = k % WRITE_BLOCK := by
  have h1 : alignDown k = k - k % 2048 := rfl
  have h2 : WRITE_BLOCK = 2048 := rfl
  rw [h2, h1]
  have h3 : k % 2048 ≤ k := Nat.mod_le _ _
  omega

theorem writeAt_length (disk data : List Nat) (rstart : Nat)
    (h : rstart + data.length ≤ disk.length) :
    (writeAt disk data rstart).length = disk.length := by
  simp [writeAt]
  omega

theorem regionsDisjointB_tail (a : Nat × List Nat) (l : Patch)
    (h : regionsDisjointB (a :: l) = true) : regionsDisjointB l = true := by
  cases l with
  | nil => rfl
  | cons b rest =>
    simp only [regionsDisjointB, Bool.and_eq_true] at h
    exact h.2

theorem regionsDisjointB_head (a : Nat × List Nat) (l : Patch)
    (h : regionsDisjointB (a :: l) = true) :
    ∀ b ∈ l, alignDown a.1 + roundUpBlock a.2.length ≤ alignDown b.1 := by
  induction l generalizing a with
  | nil => intro b hb; simp at hb
  | cons c rest ih =>
    intro b hb
    simp only [regionsDisjointB, Bool.and_eq_true, decide_eq_true_eq] at h
    rcases List.mem_cons.mp hb with hbc | hbr
    · subst hbc; exact h.1
    · have hc := ih c h.2 b hbr
      have : alignDown c.1 ≤ alignDown c.1 + roundUpBlock c.2.length :=
        Nat.le_add_right _ _
      omega

/-- On any successful run, the write log is exactly `specLog` of the
processed entries: processed in order, region `(at, size)` computed by the
alignment formulas, and a patch is skipped (no read, no write) precisely
when its region end does not exceed the previous written region's end. -/
theorem writeLoop_log_spec (env : WriteEnv) (patchAll : Patch) (len : Nat) :
    ∀ (entries : Patch) (prev : Nat) (disk buffer : List Nat)
      (log0 : List (Nat × Nat)) (d b : List Nat) (log : List (Nat × Nat)),
      writeLoop env patchAll len entries prev disk buffer log0
        = some (.ok (d, b, log)) →
      log = log0 ++ specLog entries prev := by
  intro entries
  induction entries with
  | nil =>
    intro prev disk buffer log0 d b log hg
    simp only [writeLoop, Option.some.injEq, Except.ok.injEq,
      Prod.mk.injEq] at hg
    obtain ⟨h1, h2, h3⟩ := hg
    subst h3
    simp [specLog]
  | cons kv rest ih =>
    intro prev disk buffer log0 d b log hg
    obtain ⟨k, v⟩ := kv
    simp only [writeLoop] at hg
    split at hg
    · exact absurd hg (by simp)
    · split at hg
      · rename_i hcond
        split at hg
        · exact absurd hg (by simp)
        · split at hg
          · exact absurd hg (by simp)
          · rename_i buf1 hrb
            split at hg
            · exact absurd hg (by simp)
            · rename_i buf2 hap
              split at hg
              · exact absurd hg (by simp)
              · split at hg
                · exact absurd hg (by simp)
                · have := ih _ _ _ _ d b log hg
                  rw [this]
                  simp only [specLog]
                  rw [if_pos hcond]
                  simp
      · rename_i hcond
        have := ih _ _ _ _ d b log hg
        rw [this]
        simp only [specLog]
        rw [if_neg hcond]

theorem filter_keys_lt (patch : Patch) (fisize : Nat)
    (h : ∀ kv ∈ patch, kv.1 < fisize) :
    patch.filter (fun kv => decide (kv.1 < fisize)) = patch := by
  induction patch with
  | nil => rfl
  | cons kv rest ih =>
    have hk := h kv (by simp)
    simp only [List.filter_cons, decide_eq_true_eq]
    rw [if_pos hk, ih (fun e he => h e (by simp [he]))]

theorem filter_none (rs maxOff : Nat) (l : Patch)
    (h : ∀ x ∈ l, ¬ (rs ≤ x.1 ∧ x.1 < maxOff)) :
    inRangeEntries rs maxOff l = [] := by
  induction l with
  | nil => rfl
  | cons kv rest ih =>
    simp only [inRangeEntries, List.filter_cons]
    rw [if_neg (by simpa using h kv (by simp))]
    exact ih (fun e he => h e (by simp [he]))

theorem inRange_eq_singleton (pre rest : Patch) (a : Nat × List Nat)
    (rs maxOff : Nat)
    (hpre : ∀ x ∈ pre, ¬ (rs ≤ x.1 ∧ x.1 < maxOff))
    (ha : rs ≤ a.1 ∧ a.1 < maxOff)
    (hrest : ∀ x ∈ rest, ¬ (rs ≤ x.1 ∧ x.1 < maxOff)) :
    inRangeEntries rs maxOff (pre ++ a :: rest) = [a] := by
  unfold inRangeEntries
  rw [List.filter_append]
  have h1 : List.filter (fun kv => decide (rs ≤ kv.1 ∧ kv.1 < maxOff)) pre
      = [] := by
    have := filter_none rs maxOff pre hpre
    simpa [inRangeEntries] using this
  have h2 : List.filter (fun kv => decide (rs ≤ kv.1 ∧ kv.1 < maxOff)) rest
      = [] := by
    have := filter_none rs maxOff rest hrest
    simpa [inRangeEntries] using this
  rw [h1, List.filter_cons]
  rw [if_pos (by simpa using ha), h2]
  simp

/-- Under pairwise-disjoint aligned regions (and runs confined to their
block and the file), the region loop writes every patch's region exactly
once, in order, and succeeds. -/
theorem writeLoop_disjoint_run (len : Nat) (patchAll : Patch)
    (hfit : ∀ kv ∈ patchAll, kv.2 ≠ [] ∧ kv.1 < len ∧
      kv.1 % WRITE_BLOCK + kv.2.length ≤ WRITE_BLOCK) :
    ∀ (entries pre : Patch) (prev : Nat) (disk buffer : List Nat)
      (log0 : List (Nat × Nat)),
      patchAll = pre ++ entries →
      regionsDisjointB entries = true →
      (∀ kv ∈ pre, alignDown kv.1 + roundUpBlock kv.2.length ≤ prev) →
      (∀ kv ∈ entries, prev ≤ alignDown kv.1) →
      disk.length = len →
      ∃ d2 b2, writeLoop envOk patchAll len entries prev disk buffer log0
        = some (.ok (d2, b2, log0 ++ entries.map (fun kv =>
            (alignDown kv.1, roundUpBlock kv.2.length)))) ∧
          d2.length = len := by
  have hWB : WRITE_BLOCK = 2048 := rfl
  -- every run in the patch rounds up to exactly one block
  have hsz_all : ∀ kv ∈ patchAll, roundUpBlock kv.2.length = 2048 := by
    intro kv hkv
    obtain ⟨hv, _, hfit2⟩ := hfit kv hkv
    rw [hWB] at hfit2
    refine roundUpBlock_eq kv.2.length ?_ (by omega)
    cases hv2 : kv.2 with
    | nil => exact absurd hv2 hv
    | cons a l => simp
  intro entries
  induction entries with
  | nil =>
    intro pre prev disk buffer log0 hsplit hdisj hpre hprev hdlen
    exact ⟨disk, buffer, by simp [writeLoop], hdlen⟩
  | cons kv0 rest ih =>
    intro pre prev disk buffer log0 hsplit hdisj hpre hprev hdlen
    obtain ⟨k, v⟩ := kv0
    have hmem : (k, v) ∈ patchAll := by
      rw [hsplit]; exact List.mem_append_right _ (by simp)
    obtain ⟨hv, hklen, hkfit⟩ := hfit (k, v) hmem
    simp only at hv hklen hkfit
    rw [hWB] at hkfit
    have hv1 : 1 ≤ v.length := by
      cases hv2 : v with
      | nil => exact absurd hv2 hv
      | cons a l => simp
    have hsz : roundUpBlock v.length = 2048 := by
      simpa using hsz_all (k, v) hmem
    have hrs_le : alignDown k ≤ k := alignDown_le k
    have hrs_lt : k < alignDown k + 2048 := by
      have := lt_alignDown_add k
      rw [hWB] at this
      exact this
    have hrs_len : alignDown k < len := by omega
    have hprev_k : prev ≤ alignDown k := by
      simpa using hprev (k, v) (by simp)
    have hcond : prev < alignDown k + roundUpBlock v.length := by
      rw [hsz]; omega
    obtain ⟨buf1, hb1, hb1len, hb1pt⟩ :=
      read_block_spec (roundUpBlock v.length) (alignDown k) disk buffer
        (by omega)
    rw [hdlen] at hb1
    have hsingle : inRangeEntries (alignDown k) (alignDown k + WRITE_BLOCK)
        patchAll = [(k, v)] := by
      rw [hsplit]
      apply inRange_eq_singleton
      · intro x hx hcontra
        have hx_end := hpre x hx
        have hx_lt := lt_alignDown_add x.1
        have hx_sz : roundUpBlock x.2.length = 2048 :=
          hsz_all x (by rw [hsplit]; exact List.mem_append_left _ hx)
        rw [hx_sz] at hx_end
        rw [hWB] at hx_lt hcontra
        omega
      · rw [hWB]
        exact ⟨by omega, by omega⟩
      · intro x hx hcontra
        have hx_start := regionsDisjointB_head (k, v) rest hdisj x hx
        simp only at hx_start
        have hx_ge : alignDown x.1 ≤ x.1 := alignDown_le x.1
        rw [hsz] at hx_start
        rw [hWB] at hcontra
        omega
    have hkd : k - alignDown k = k % 2048 := by
      have := alignDown_sub k
      rw [hWB] at this
      exact this
    obtain ⟨buf2, hap, hb2len, hb2pt⟩ :=
      applyEntries_spec (alignDown k) [(k, v)] buf1
        (by
          intro e he
          have he2 : e = (k, v) := by simpa using he
          subst he2
          simp only
          rw [hb1len, hsz, hkd]
          omega)
        (by
          intro e he
          have he2 : e = (k, v) := by simpa using he
          subst he2
          exact hrs_le)
    have hnotlen : ¬ (len < alignDown k) := by omega
    have hdisk2 : (writeAt disk
        (buf2.take (min (roundUpBlock v.length) (len - alignDown k)))
        (alignDown k)).length = len := by
      rw [writeAt_length]
      · exact hdlen
      · rw [List.length_take, hdlen]
        omega
    have hstep : writeLoop envOk patchAll len ((k, v) :: rest) prev disk
        buffer log0
        = writeLoop envOk patchAll len rest
            (alignDown k + roundUpBlock v.length)
            (writeAt disk
              (buf2.take (min (roundUpBlock v.length) (len - alignDown k)))
              (alignDown k))
            buf2 (log0 ++ [(alignDown k, roundUpBlock v.length)]) := by
      have hvne : ¬ (v.length = 0) := by omega
      simp only [writeLoop]
      rw [if_neg hvne, if_pos hcond]
      simp only [envOk, Bool.false_eq_true, if_false]
      rw [hb1, hsingle]
      simp only [hap]
      rw [if_neg hnotlen]
    obtain ⟨d2, b2, hrec, hd2len⟩ := ih (pre ++ [(k, v)])
      (alignDown k + roundUpBlock v.length) _ buf2
      (log0 ++ [(alignDown k, roundUpBlock v.length)])
      (by rw [hsplit]; simp)
      (regionsDisjointB_tail _ _ hdisj)
      (by
        intro e he
        rcases List.mem_append.mp he with h | h
        · have := hpre e h
          omega
        · have he2 : e = (k, v) := by simpa using h
          subst he2
          simp only
          omega)
      (by
        intro e he
        have := regionsDisjointB_head (k, v) rest hdisj e he
        simp only at this
        omega)
      hdisk2
    refine ⟨d2, b2, ?_, hd2len⟩
    rw [hstep, hrec]
    simp

theorem regionsDisjointB_pairwise (patch : Patch)
    (h : regionsDisjointB patch = true) :
    List.Pairwise (fun a b => a.1 + a.2 ≤ b.1)
      (patch.map (fun kv => (alignDown kv.1, roundUpBlock kv.2.length))) := by
  induction patch with
  | nil => simp
  | cons a rest ih =>
    simp only [List.map_cons]
    refine List.Pairwise.cons ?_ (ih (regionsDisjointB_tail _ _ h))
    intro b hb
    obtain ⟨e, he, hbe⟩ := List.mem_map.mp hb
    subst hbe
    simpa using regionsDisjointB_head a rest h e he

/-- Claim C2 (confirmed): during flush the patches are processed in
ascending offset order and, on any successful run, the write log is exactly
`specLog`: each processed patch contributes the region
`(offset & !(WRITE_BLOCK-1), round_up(len, WRITE_BLOCK))`, and a patch
whose region end does not exceed the previous written region's end
triggers no read and no write.  Moreover, for patches whose aligned
regions are pairwise disjoint, the flush succeeds and performs exactly one
write per patch — the number of writes equals the number of distinct
aligned regions, each written exactly once (region starts strictly
increase). -/
theorem C2_flush_regions (patch : Patch) (fisize : Nat) (disk : List Nat) :
    (∀ p2 d2 log, files_write envOk patch fisize disk = some (.ok p2 d2 log) →
      log = specLog (patch.filter (fun kv => decide (kv.1 < fisize))) 0) ∧
    (keysSortedB patch = true →
     regionsDisjointB patch = true →
     (∀ kv ∈ patch, kv.2 ≠ [] ∧ kv.1 < fisize ∧ kv.1 < disk.length ∧
        kv.1 % WRITE_BLOCK + kv.2.length ≤ WRITE_BLOCK) →
     ∃ d2, files_write envOk patch fisize disk
        = some (.ok [] d2 (patch.map (fun kv =>
            (alignDown kv.1, roundUpBlock kv.2.length)))) ∧
       List.Pairwise (fun a b => a.1 + a.2 ≤ b.1)
         (patch.map (fun kv => (alignDown kv.1, roundUpBlock kv.2.length))) ∧
       (patch.map (fun kv =>
         (alignDown kv.1, roundUpBlock kv.2.length))).length
           = patch.length) := by
  constructor
  · intro p2 d2 log h
    unfold files_write at h
    split at h
    · exact absurd h (by simp)
    · rename_i d0 log0 hloop
      exact absurd (Option.some.inj h) (by simp)
    · rename_i d0 b0 log0 hloop
      have he := Option.some.inj h
      injection he with h1 h2 h3
      subst h3
      have := writeLoop_log_spec envOk patch disk.length _ _ _ _ _ _ _ _ hloop
      simpa using this
  · intro hsort hdisj hfit2
    have hfilter : patch.filter (fun kv => decide (kv.1 < fisize)) = patch :=
      filter_keys_lt patch fisize (fun kv h => (hfit2 kv h).2.1)
    obtain ⟨d2, b2, hrun, _⟩ := writeLoop_disjoint_run disk.length patch
      (fun kv h => ⟨(hfit2 kv h).1, (hfit2 kv h).2.2.1, (hfit2 kv h).2.2.2⟩)
      patch [] 0 disk [] [] (by simp) hdisj (by simp)
      (fun kv h => Nat.zero_le _) rfl
    refine ⟨d2, ?_, regionsDisjointB_pairwise patch hdisj, by simp⟩
    unfold files_write
    rw [hfilter, hrun]
    simp

/-- Witness for C2 at a concrete input: a single one-byte patch at offset 0
of a one-byte file. -/
theorem C2_flush_regions_witness :
    keysSortedB [(0, [1])] = true ∧
    regionsDisjointB [(0, [1])] = true ∧
    (∃ d2, files_write envOk [(0, [1])] 1 [5]
        = some (.ok [] d2 (([(0, [1])] : Patch).map (fun kv =>
            (alignDown kv.1, roundUpBlock kv.2.length)))) ∧
      List.Pairwise (fun a b => a.1 + a.2 ≤ b.1)
        (([(0, [1])] : Patch).map (fun kv =>
          (alignDown kv.1, roundUpBlock kv.2.length))) ∧
      (([(0, [1])] : Patch).map (fun kv =>
        (alignDown kv.1, roundUpBlock kv.2.length))).length = 1) := by
  refine ⟨by decide, by decide, ?_⟩
  exact (C2_flush_regions [(0, [1])] 1 [5]).2 (by decide) (by decide)
    (by decide)

/-- Witness for C3 at a concrete input: flushing a one-byte patch of a
one-byte file in the fault-free environment. -/
theorem C3_flush_overlay_atomicity_witness :
    ∃ r, files_write envOk [(0, [1])] 1 [5] = some r ∧
      ((∀ p2 d2 log, r = .ok p2 d2 log →
        p2 = [] ∧ ∀ e ∈ log, envOk.rfail e.1 = false ∧
          envOk.wfail e.1 = false) ∧
       (∀ p2 d2 log, r = .ioerr p2 d2 log → p2 = [(0, [1])]) ∧
       ((∀ a, envOk.rfail a = false) → (∀ a, envOk.wfail a = false) →
        ∃ d2 log2, r = .ok [] d2 log2)) := by
  obtain ⟨d2, b2, hrun, _⟩ := writeLoop_disjoint_run 1 [(0, [1])]
    (by decide) [(0, [1])] [] 0 [5] [] [] rfl (by decide)
    (by simp) (fun kv h => Nat.zero_le _) rfl
  have heq : files_write envOk [(0, [1])] 1 [5]
      = some (.ok [] d2 ([] ++ ([(0, [1])] : Patch).map (fun kv =>
          (alignDown kv.1, roundUpBlock kv.2.length)))) := by
    unfold files_write
    rw [show List.filter (fun kv => decide (kv.1 < 1))
        ([(0, [1])] : Patch) = [(0, [1])] from by decide]
    rw [show ([5] : List Nat).length = 1 from rfl]
    rw [hrun]
  exact ⟨_, heq, C3_flush_overlay_atomicity envOk [(0, [1])] 1 [5] _ heq⟩

theorem keysSortedB_tail (a : Nat × List Nat) (l : Patch)
    (h : keysSortedB (a :: l) = true) : keysSortedB l = true := by
  cases l with
  | nil => rfl
  | cons b rest =>
    simp only [keysSortedB, Bool.and_eq_true] at h
    exact h.2

theorem keysSortedB_head (a : Nat × List Nat) (l : Patch)
    (h : keysSortedB (a :: l) = true) : ∀ b ∈ l, a.1 < b.1 := by
  induction l generalizing a with
  | nil => intro b hb; simp at hb
  | cons c rest ih =>
    intro b hb
    simp only [keysSortedB, Bool.and_eq_true, decide_eq_true_eq] at h
    rcases List.mem_cons.mp hb with hbc | hbr
    · subst hbc; exact h.1
    · exact lt_trans h.1 (ih c h.2 b hbr)

theorem keysSortedB_append_right (pre l : Patch)
    (h : keysSortedB (pre ++ l) = true) : keysSortedB l = true := by
  induction pre with
  | nil => exact h
  | cons a rest ih =>
    exact ih (keysSortedB_tail a (rest ++ l) h)

theorem lastCovering_none (i : Nat) (l : Patch)
    (h : ∀ kv ∈ l, ¬ (kv.1 ≤ i ∧ i < kv.1 + kv.2.length)) :
    lastCovering i l = none := by
  induction l with
  | nil => rfl
  | cons kv rest ih =>
    simp only [lastCovering]
    rw [ih (fun e he => h e (by simp [he]))]
    rw [if_neg (h kv (by simp))]

theorem lastCovering_filter (i : Nat) (l : Patch) (p : Nat × List Nat → Bool)
    (h : ∀ kv ∈ l, (kv.1 ≤ i ∧ i < kv.1 + kv.2.length) → p kv = true) :
    lastCovering i (l.filter p) = lastCovering i l := by
  induction l with
  | nil => rfl
  | cons kv rest ih =>
    have ih2 := ih (fun e he hc => h e (by simp [he]) hc)
    by_cases hp : p kv = true
    · simp only [List.filter_cons, hp, if_true, lastCovering, ih2]
    · have hnc : ¬ (kv.1 ≤ i ∧ i < kv.1 + kv.2.length) := fun hc =>
        hp (h kv (by simp) hc)
      have hb : p kv = false := by
        cases hpv : p kv with
        | true => exact absurd hpv hp
        | false => rfl
      rw [List.filter_cons, hb]
      simp only [Bool.false_eq_true, if_false]
      rw [ih2]
      cases hlc : lastCovering i rest with
      | some e => simp [lastCovering, hlc]
      | none => simp [lastCovering, hlc, if_neg hnc]

theorem overwriteRun_eq_writeAt (disk v : List Nat) (k : Nat) :
    overwriteRun disk k v = writeAt disk v k := rfl

theorem overwriteRun_byteAt (disk v : List Nat) (k : Nat)
    (h : k + v.length ≤ disk.length) :
    (overwriteRun disk k v).length = disk.length ∧
    ∀ i, byteAt (overwriteRun disk k v) i =
      if k ≤ i ∧ i < k + v.length then byteAt v (i - k)
      else byteAt disk i := by
  obtain ⟨buf2, hs, hlen, hpt⟩ := spliceList_spec disk v k h
  have he : buf2 = overwriteRun disk k v := by
    have : spliceList disk k v = some (overwriteRun disk k v) := by
      simp [spliceList, overwriteRun, h]
    rw [this] at hs
    exact (Option.some.inj hs).symm
  rw [← he]
  exact ⟨hlen, hpt⟩

theorem editedDisk_spec (patch : Patch) :
    ∀ (disk : List Nat),
      (∀ kv ∈ patch, kv.1 + kv.2.length ≤ disk.length) →
      (editedDisk patch disk).length = disk.length ∧
      ∀ i, byteAt (editedDisk patch disk) i =
        match lastCovering i patch with
        | some kv => byteAt kv.2 (i - kv.1)
        | none => byteAt disk i := by
  induction patch with
  | nil => exact fun disk _ => ⟨rfl, fun i => by simp [editedDisk, lastCovering]⟩
  | cons kv rest ih =>
    intro disk h
    have hk := h kv (by simp)
    obtain ⟨hlen1, hpt1⟩ := overwriteRun_byteAt disk kv.2 kv.1 hk
    have hstep : editedDisk (kv :: rest) disk
        = editedDisk rest (overwriteRun disk kv.1 kv.2) := rfl
    obtain ⟨hlen2, hpt2⟩ := ih (overwriteRun disk kv.1 kv.2)
      (fun e he => by rw [hlen1]; exact h e (by simp [he]))
    rw [hstep]
    refine ⟨by rw [hlen2, hlen1], ?_⟩
    intro i
    rw [hpt2 i]
    cases hlc : lastCovering i rest with
    | some e => simp [lastCovering, hlc]
    | none =>
      simp only [lastCovering, hlc]
      rw [hpt1 i]
      by_cases hcov : kv.1 ≤ i ∧ i < kv.1 + kv.2.length
      · simp [hcov]
      · simp [hcov]

/-- The heart of the round-trip argument: with every run nonempty, inside
the file, and confined to a single aligned block, the region loop succeeds
and leaves the disk pointwise equal to the edited contents
`editedDisk patch disk0`. -/
theorem writeLoop_roundtrip_run (L : Nat) (patch : Patch) (disk0 : List Nat)
    (hL0 : disk0.length = L)
    (hfit : ∀ kv ∈ patch, kv.2 ≠ [] ∧ kv.1 + kv.2.length ≤ L ∧
      kv.1 % WRITE_BLOCK + kv.2.length ≤ WRITE_BLOCK)
    (hsort : keysSortedB patch = true) :
    ∀ (entries pre : Patch) (prev : Nat) (disk buffer : List Nat)
      (log0 : List (Nat × Nat)),
      patch = pre ++ entries →
      prev % WRITE_BLOCK = 0 →
      disk.length = L →
      (∀ i, i < L → i < prev →
        byteAt disk i = byteAt (editedDisk patch disk0) i) →
      (∀ i, prev ≤ i → i < L → byteAt disk i = byteAt disk0 i) →
      (∀ kv ∈ pre, alignDown kv.1 + WRITE_BLOCK ≤ prev) →
      ∃ d2 b2 log2,
        writeLoop envOk patch L entries prev disk buffer log0
          = some (.ok (d2, b2, log2)) ∧
        d2.length = L ∧
        (∀ i, i < L → byteAt d2 i = byteAt (editedDisk patch disk0) i) := by
  have hWB : WRITE_BLOCK = 2048 := rfl
  obtain ⟨hElen, hEpt⟩ := editedDisk_spec patch disk0 (fun kv h => by
    have := (hfit kv h).2.1
    omega)
  intro entries
  induction entries with
  | nil =>
    intro pre prev disk buffer log0 hsplit hpal hdlen hB hC hF
    refine ⟨disk, buffer, log0, by simp [writeLoop], hdlen, ?_⟩
    intro i hiL
    by_cases hip : i < prev
    · exact hB i hiL hip
    · have hnc : lastCovering i patch = none := by
        apply lastCovering_none
        intro kv hkv hcov
        have hkv2 : kv ∈ pre := by
          rw [hsplit] at hkv
          simpa using hkv
        have hFk := hF kv hkv2
        have hfitk := (hfit kv hkv).2.2
        have hsub := alignDown_sub kv.1
        rw [hWB] at hFk hfitk hsub
        omega
      rw [hC i (by omega) hiL, hEpt i, hnc]
  | cons kv0 rest ih =>
    intro pre prev disk buffer log0 hsplit hpal hdlen hB hC hF
    obtain ⟨k, v⟩ := kv0
    have hmem : (k, v) ∈ patch := by
      rw [hsplit]; exact List.mem_append_right _ (by simp)
    obtain ⟨hv, hkL, hkfit⟩ := hfit (k, v) hmem
    simp only at hv hkL hkfit
    rw [hWB] at hkfit
    have hv1 : 1 ≤ v.length := by
      cases hv2 : v with
      | nil => exact absurd hv2 hv
      | cons a l => simp
    have hsz : roundUpBlock v.length = 2048 :=
      roundUpBlock_eq v.length hv1 (by omega)
    have hsubk : k - alignDown k = k % 2048 := by
      have := alignDown_sub k
      rw [hWB] at this
      exact this
    have hkmod : k % 2048 < 2048 := Nat.mod_lt _ (by norm_num)
    have hrsle : alignDown k ≤ k := alignDown_le k
    have hrsal : alignDown k % 2048 = 0 := by
      have h1 : alignDown k = k - k % 2048 := rfl
      omega
    have hpal2 : prev % 2048 = 0 := by rw [hWB] at hpal; exact hpal
    have hkL2 : k < L := by omega
    have hvne : ¬ (v.length = 0) := by omega
    have hsortrest : ∀ e ∈ rest, k < e.1 := by
      have hs2 : keysSortedB ((k, v) :: rest) = true :=
        keysSortedB_append_right pre _ (by rw [← hsplit]; exact hsort)
      intro e he
      simpa using keysSortedB_head (k, v) rest hs2 e he
    by_cases hcond : prev < alignDown k + roundUpBlock v.length
    · -- write branch
      have hprevrs : prev ≤ alignDown k := by
        rw [hsz] at hcond
        omega
      have hrsL : alignDown k < L := by omega
      obtain ⟨buf1, hb1, hb1len, hb1pt⟩ :=
        read_block_spec (roundUpBlock v.length) (alignDown k) disk buffer
          (by omega)
      rw [hdlen] at hb1 hb1pt
      have hWrange : ∀ e ∈ inRangeEntries (alignDown k)
          (alignDown k + WRITE_BLOCK) patch,
          e ∈ patch ∧ alignDown k ≤ e.1 ∧ e.1 < alignDown k + 2048 := by
        intro e he
        obtain ⟨hm, hr⟩ := List.mem_filter.mp he
        have := of_decide_eq_true hr
        rw [hWB] at this
        exact ⟨hm, this.1, this.2⟩
      obtain ⟨buf2, hap, hb2len, hb2pt⟩ :=
        applyEntries_spec (alignDown k)
          (inRangeEntries (alignDown k) (alignDown k + WRITE_BLOCK) patch)
          buf1
          (by
            intro e he
            obtain ⟨hm, hlo, hhi⟩ := hWrange e he
            have hfe := (hfit e hm).2.2
            rw [hWB] at hfe
            rw [hb1len, hsz]
            omega)
          (fun e he => (hWrange e he).2.1)
      have hnotlen : ¬ (L < alignDown k) := by omega
      have hbsize_le : min (roundUpBlock v.length) (L - alignDown k)
          ≤ buf2.length := by
        rw [hb2len, hb1len]
        omega
      have hdata_len : (buf2.take (min (roundUpBlock v.length)
          (L - alignDown k))).length
          = min (roundUpBlock v.length) (L - alignDown k) := by
        rw [List.length_take]
        omega
      have hwa_fit : alignDown k + (buf2.take (min (roundUpBlock v.length)
          (L - alignDown k))).length ≤ disk.length := by
        rw [hdata_len, hdlen, hsz]
        omega
      obtain ⟨hwalen, hw_pt⟩ := overwriteRun_byteAt disk
        (buf2.take (min (roundUpBlock v.length) (L - alignDown k)))
        (alignDown k) hwa_fit
      have hdisk2len : (writeAt disk
          (buf2.take (min (roundUpBlock v.length) (L - alignDown k)))
          (alignDown k)).length = L := by
        rw [← overwriteRun_eq_writeAt, hwalen, hdlen]
      have hstep : writeLoop envOk patch L ((k, v) :: rest) prev disk
          buffer log0
          = writeLoop envOk patch L rest
              (alignDown k + roundUpBlock v.length)
              (writeAt disk
                (buf2.take (min (roundUpBlock v.length) (L - alignDown k)))
                (alignDown k))
              buf2 (log0 ++ [(alignDown k, roundUpBlock v.length)]) := by
        simp only [writeLoop]
        rw [if_neg hvne, if_pos hcond]
        simp only [envOk, Bool.false_eq_true, if_false]
        rw [hb1]
        simp only [hap]
        rw [if_neg hnotlen]
      -- the bridge between full-overlay coverage and the window's entries
      have hbridge : ∀ i, alignDown k ≤ i → i < alignDown k + 2048 →
          lastCovering i (inRangeEntries (alignDown k)
            (alignDown k + WRITE_BLOCK) patch) = lastCovering i patch := by
        intro i hilo hihi
        apply lastCovering_filter
        intro e he hcov
        have hfe := (hfit e he).2.2
        have hsub := alignDown_sub e.1
        have hallt := lt_alignDown_add e.1
        have haleq : alignDown e.1 % 2048 = 0 := by
          have h1 : alignDown e.1 = e.1 - e.1 % 2048 := rfl
          have h2 : e.1 % 2048 ≤ e.1 := Nat.mod_le _ _
          omega
        rw [hWB] at hfe hsub hallt
        simp only [decide_eq_true_eq]
        have hale : alignDown e.1 ≤ e.1 := alignDown_le e.1
        rw [hWB]
        constructor
        · omega
        · omega
      -- pointwise description of the updated disk
      have hdisk2pt : ∀ i, i < L →
          byteAt (writeAt disk
            (buf2.take (min (roundUpBlock v.length) (L - alignDown k)))
            (alignDown k)) i
          = if alignDown k ≤ i ∧
              i < alignDown k + min (roundUpBlock v.length) (L - alignDown k)
            then byteAt buf2 (i - alignDown k)
            else byteAt disk i := by
        intro i hiL
        rw [← overwriteRun_eq_writeAt, hw_pt i, hdata_len]
        by_cases hz : alignDown k ≤ i ∧
            i < alignDown k + min (roundUpBlock v.length) (L - alignDown k)
        · rw [if_pos hz, if_pos hz, byteAt_take _ _ _ (by omega)]
        · rw [if_neg hz, if_neg hz]
      obtain ⟨d2, b2, log2, hrec, hd2len, hd2pt⟩ := ih (pre ++ [(k, v)])
        (alignDown k + roundUpBlock v.length)
        (writeAt disk
          (buf2.take (min (roundUpBlock v.length) (L - alignDown k)))
          (alignDown k))
        buf2 (log0 ++ [(alignDown k, roundUpBlock v.length)])
        (by rw [hsplit]; simp)
        (by rw [hsz, hWB]; omega)
        hdisk2len
        (by
          -- invariant (B): everything below the new prev is already edited
          intro i hiL hiprev
          rw [hsz] at hiprev
          rw [hdisk2pt i hiL]
          by_cases hz : alignDown k ≤ i ∧
              i < alignDown k + min (roundUpBlock v.length) (L - alignDown k)
          · rw [if_pos hz]
            rw [hb2pt (i - alignDown k)]
            have hidx : alignDown k + (i - alignDown k) = i := by omega
            rw [hidx, hbridge i hz.1 (by omega), hEpt i]
            cases hlc : lastCovering i patch with
            | some e => rfl
            | none =>
              rw [hb1pt (i - alignDown k) (by rw [hsz]; omega)]
              rw [if_pos (by omega), hidx]
              exact hC i (by omega) hiL
          · rw [if_neg hz]
            rw [hsz] at hz
            by_cases hip : i < prev
            · exact hB i hiL hip
            · -- the gap between prev and this region's start
              have higap : i < alignDown k := by omega
              have hnc : lastCovering i patch = none := by
                apply lastCovering_none
                intro e he hcov
                rw [hsplit] at he
                rcases List.mem_append.mp he with hepre | hecur
                · have hFe := hF e hepre
                  have hfe := (hfit e (by rw [hsplit]; exact List.mem_append_left _ hepre)).2.2
                  have hsub := alignDown_sub e.1
                  rw [hWB] at hFe hfe hsub
                  omega
                · rcases List.mem_cons.mp hecur with hek | herest
                  · subst hek
                    simp only at hcov
                    omega
                  · have := hsortrest e herest
                    omega
              rw [hC i (by omega) hiL, hEpt i, hnc]
        )
        (by
          -- invariant (C): everything at or above the new prev is original
          intro i hige hiL
          rw [hsz] at hige
          rw [hdisk2pt i hiL]
          rw [if_neg (by omega)]
          exact hC i (by omega) hiL)
        (by
          -- invariant (F): processed blocks end at or before the new prev
          intro e he
          rcases List.mem_append.mp he with h | h
          · have := hF e h
            rw [hsz, hWB] at *
            omega
          · have he2 : e = (k, v) := by simpa using h
            subst he2
            simp only
            rw [hsz, hWB])
      exact ⟨d2, b2, log2, by rw [hstep]; exact hrec, hd2len, hd2pt⟩
    · -- skip branch: the region was subsumed by an earlier write
      have hskip : alignDown k + 2048 ≤ prev := by
        rw [hsz] at hcond
        omega
      have hstep : writeLoop envOk patch L ((k, v) :: rest) prev disk
          buffer log0 = writeLoop envOk patch L rest prev disk buffer log0 := by
        simp only [writeLoop]
        rw [if_neg hvne, if_neg hcond]
      obtain ⟨d2, b2, log2, hrec, hd2len, hd2pt⟩ := ih (pre ++ [(k, v)])
        prev disk buffer log0
        (by rw [hsplit]; simp)
        hpal hdlen hB hC
        (by
          intro e he
          rcases List.mem_append.mp he with h | h
          · exact hF e h
          · have he2 : e = (k, v) := by simpa using h
            subst he2
            simp only
            rw [hWB]
            omega)
      exact ⟨d2, b2, log2, by rw [hstep]; exact hrec, hd2len, hd2pt⟩

/-- Claim C1 as amended (proved): for any file and any key-sorted overlay of
nonempty edit runs that lie wholly inside the file and inside a single
2048-byte aligned block (runs crossing a block boundary or reaching past
end-of-file make the flush fail or truncate — see the counterexample), a
successful flush clears the overlay and leaves the disk byte-for-byte equal
to the edited contents, so a fresh load of any window covering the edited
region (read_block followed by the now-empty overlay application) yields
exactly the edited bytes at every edited offset and the original bytes
everywhere else. -/
theorem C1_roundtrip_persistence (patch : Patch) (disk : List Nat)
    (hsort : keysSortedB patch = true)
    (hfit : ∀ kv ∈ patch, kv.2 ≠ [] ∧ kv.1 + kv.2.length ≤ disk.length ∧
      kv.1 % WRITE_BLOCK + kv.2.length ≤ WRITE_BLOCK) :
    ∃ d2 log2,
      files_write envOk patch disk.length disk = some (.ok [] d2 log2) ∧
      d2.length = disk.length ∧
      (∀ i, i < disk.length →
        byteAt d2 i = byteAt (editedDisk patch disk) i) ∧
      (∀ i, i < disk.length →
        (∀ kv ∈ patch, ¬ (kv.1 ≤ i ∧ i < kv.1 + kv.2.length)) →
        byteAt (editedDisk patch disk) i = byteAt disk i) ∧
      (∀ woff wsz buffer2, woff < disk.length →
        ∃ w, read_block wsz woff disk.length d2 buffer2 = some w ∧
          applyEntries woff (inRangeEntries woff (woff + wsz) []) w
            = some w ∧
          (∀ j, j < wsz → woff + j < disk.length →
            byteAt w j = byteAt (editedDisk patch disk) (woff + j))) := by
  obtain ⟨d2, b2, log2, hloop, hd2len, hd2pt⟩ :=
    writeLoop_roundtrip_run disk.length patch disk rfl hfit hsort patch []
      0 disk [] []
      (by simp) (Nat.zero_mod _) rfl
      (fun i _ hi0 => absurd hi0 (by omega))
      (fun i _ _ => rfl)
      (fun kv h => absurd h (List.not_mem_nil _))
  have hfilter : patch.filter (fun kv => decide (kv.1 < disk.length))
      = patch := by
    apply filter_keys_lt
    intro kv h
    obtain ⟨hv, hle, _⟩ := hfit kv h
    have hv1 : 1 ≤ kv.2.length := by
      cases hv2 : kv.2 with
      | nil => exact absurd hv2 hv
      | cons a l => simp
    omega
  refine ⟨d2, log2, ?_, hd2len, hd2pt, ?_, ?_⟩
  · unfold files_write
    rw [hfilter, hloop]
  · intro i hiL hnc
    obtain ⟨hElen, hEpt⟩ := editedDisk_spec patch disk
      (fun kv h => (hfit kv h).2.1)
    rw [hEpt i, lastCovering_none i patch hnc]
  · intro woff wsz buffer2 hwoff
    obtain ⟨w, hw, hwlen, hwpt⟩ := read_block_spec wsz woff d2 buffer2
      (by rw [hd2len]; exact hwoff)
    rw [hd2len] at hw hwpt
    refine ⟨w, hw, rfl, ?_⟩
    intro j hjw hjL
    rw [hwpt j hjw, if_pos (by omega)]
    exact hd2pt (woff + j) hjL

/-- Witness for C1 as amended at a concrete input: a single one-byte edit
at offset 2 of a 4-byte file. -/
theorem C1_roundtrip_persistence_witness :
    keysSortedB [(2, [9])] = true ∧
    (∃ d2 log2,
      files_write envOk [(2, [9])] [(1 : Nat), 2, 3, 4].length [1, 2, 3, 4]
        = some (.ok [] d2 log2) ∧
      d2.length = [(1 : Nat), 2, 3, 4].length ∧
      (∀ i, i < [(1 : Nat), 2, 3, 4].length →
        byteAt d2 i = byteAt (editedDisk [(2, [9])] [1, 2, 3, 4]) i) ∧
      (∀ i, i < [(1 : Nat), 2, 3, 4].length →
        (∀ kv ∈ ([(2, [9])] : Patch), ¬ (kv.1 ≤ i ∧ i < kv.1 + kv.2.length)) →
        byteAt (editedDisk [(2, [9])] [1, 2, 3, 4]) i
          = byteAt [1, 2, 3, 4] i) ∧
      (∀ woff wsz buffer2, woff < [(1 : Nat), 2, 3, 4].length →
        ∃ w, read_block wsz woff [(1 : Nat), 2, 3, 4].length d2 buffer2
            = some w ∧
          applyEntries woff (inRangeEntries woff (woff + wsz) []) w
            = some w ∧
          (∀ j, j < wsz → woff + j < [(1 : Nat), 2, 3, 4].length →
            byteAt w j
              = byteAt (editedDisk [(2, [9])] [1, 2, 3, 4]) (woff + j)))) := by
  constructor
  · decide
  · exact C1_roundtrip_persistence [(2, [9])] [1, 2, 3, 4] (by decide)
      (by decide)

theorem C1_cex_read : read_block 2048 0 4 [0, 0, 0, 0] []
    = some ([0, 0, 0, 0] ++ List.replicate 2044 255) := by
  simp [read_block, List.take_of_length_le, -List.reduceReplicate]

theorem C1_cex_apply : applyEntries 0 [(2, [5, 6, 7, 8])]
    ([0, 0, 0, 0] ++ List.replicate 2044 255)
    = some (0 :: 0 :: 5 :: 6 :: 7 :: 8 :: List.replicate 2042 255) := by
  simp [applyEntries, spliceList, List.take_append_eq_append_take,
    List.drop_append_eq_append_drop, List.drop_replicate,
    List.take_of_length_le, List.drop_of_length_le, -List.reduceReplicate]

theorem C1_cex_loop : writeLoop envOk [(2, [5, 6, 7, 8])] 4
    [(2, [5, 6, 7, 8])] 0 [0, 0, 0, 0] [] []
    = some (.ok ([0, 0, 5, 6],
        0 :: 0 :: 5 :: 6 :: 7 :: 8 :: List.replicate 2042 255,
        [(0, 2048)])) := by
  have ha : alignDown 2 = 0 := by decide
  have hr4 : roundUpBlock (List.length [5, 6, 7, 8]) = 2048 := by decide
  have hsing : inRangeEntries 0 (0 + WRITE_BLOCK) [(2, [5, 6, 7, 8])]
      = [(2, [5, 6, 7, 8])] := by decide
  have htake : List.take (min 2048 (4 - 0))
      (0 :: 0 :: 5 :: 6 :: 7 :: 8 :: List.replicate 2042 (255 : Nat))
      = [0, 0, 5, 6] := by
    rw [show min 2048 (4 - 0) = 4 from by decide]
    simp [-List.reduceReplicate]
  have hwrote : writeAt [0, 0, 0, 0] [0, 0, 5, 6] 0 = [0, 0, 5, 6] := by
    decide
  simp only [writeLoop]
  rw [if_neg (show ¬ (List.length [5, 6, 7, 8] = 0) from by decide)]
  rw [ha, hr4]
  rw [if_pos (show (0 : Nat) < 0 + 2048 from by decide)]
  simp only [envOk, Bool.false_eq_true, if_false]
  rw [C1_cex_read]
  rw [hsing]
  simp only [C1_cex_apply]
  rw [if_neg (show ¬ ((4 : Nat) < 0) from by decide)]
  rw [htake, hwrote]
  simp only [writeLoop, List.nil_append]

theorem C1_cex_flush : files_write envOk [(2, [5, 6, 7, 8])] 4 [0, 0, 0, 0]
    = some (.ok [] [0, 0, 5, 6] [(0, 2048)]) := by
  unfold files_write
  rw [show List.filter (fun kv => decide (kv.1 < 4))
      ([(2, [5, 6, 7, 8])] : Patch) = [(2, [5, 6, 7, 8])] from by decide]
  rw [show ([0, 0, 0, 0] : List Nat).length = 4 from rfl]
  rw [C1_cex_loop]

/-- Claim C1, counterexample to the literal statement: an in-window 4-byte
(dword) edit at file offset 2 of a 4-byte file — the run's last two bytes
lie past end-of-file but the patch key 2 is inside the file, so the flush
SUCCEEDS, silently truncating the run: the disk ends as `[0,0,5,6]`.  The
pre-flush working window held byte 7 at window index 4, but the fresh load
after the flush reads `0xFF` there, so the reloaded bytes do not equal the
edited bytes at every edited offset. -/
theorem C1_counterexample :
    (∃ w0, read_block 6 0 4 [0, 0, 0, 0] [] = some w0 ∧
      spliceList w0 2 [5, 6, 7, 8] = some [0, 0, 5, 6, 7, 8] ∧
      byteAt [0, 0, 5, 6, 7, 8] 4 = 7) ∧
    files_write envOk [(2, [5, 6, 7, 8])] 4 [0, 0, 0, 0]
      = some (.ok [] [0, 0, 5, 6] [(0, 2048)]) ∧
    (∃ w, read_block 6 0 4 [0, 0, 5, 6] [] = some w ∧
      applyEntries 0 (inRangeEntries 0 6 []) w = some w ∧
      byteAt w 4 = 255) ∧
    (7 : Nat) ≠ 255 := by
  refine ⟨⟨[0, 0, 0, 0, 255, 255], by decide, by decide, by decide⟩,
    C1_cex_flush,
    ⟨[0, 0, 5, 6, 255, 255], by decide, by decide, by decide⟩,
    by decide⟩
